import Mathlib

/-!
Verification of the bytecode compiler and virtual machine of `ttalk-lang`
(`src/compiler.ts` and `src/vm.ts`), shallowly embedded in Lean.

Conventions of the embedding:
* TypeScript `number` is modelled as `Int` (all arithmetic in this fragment is
  integer arithmetic: the language has integer literals, `+`, `-` and unary
  negation only, so no non-integer value ever arises).
* The bytecode buffer `Opcode[]` is a `List Nat`: the TS `Opcode` enum members
  are plain numbers (`const0 = 0 … return = 13`) and instruction operands are
  pushed into the very same array, so a flat list of naturals is the faithful
  representation.
* The value stack `Value[]` is a `List Value` whose index 0 is the bottom of
  the stack; `Array.push`/`Array.pop` act on the end of the list.
* The call stack is a `List CallFrame` whose head is the innermost (current)
  frame; TS keeps the current frame at the end of the array.
* Thrown strings are modelled as a closed error enumeration carrying the same
  context the interpolated messages carry.
-/

namespace TTalk

/-- Token kinds, from `src/lexer.ts` (`TokenType`).  The keywords `const`,
`def` and `print` are renamed with a `Kw` suffix because they collide with
Lean keywords; everything else keeps its source name. -/
inductive TokenType where
  | int | string | ident | constKw | defKw | printKw
  | plus | minus | star | slash | eq
  | lparen | rparen | lbrace | rbrace | comma | eof
deriving DecidableEq, Repr

/-- Modelled from the spec: the syntax-tree node variants consumed by the
compiler (`src/ast.ts` is not part of the provided sources; the shape is
taken from the spec's node list and from the fields the compiler reads:
`IntLitNode.value`, `StringLitNode.value`, `IdentNode.name`,
`UnaryNode.op/expr`, `BinaryNode.op/left/right`, `InvokeNode.target/args`,
`ValDeclNode.ident.name/value`, `FuncDeclNode.name.name/params/body`,
`PrintNode.expr`). -/
inductive AstNode where
  | intLit (value : Int)
  | stringLit (value : String)
  | ident (name : String)
  | unary (op : TokenType) (expr : AstNode)
  | binary (op : TokenType) (left : AstNode) (right : AstNode)
  | invoke (target : AstNode) (args : List AstNode)
  | valDecl (name : String) (value : AstNode)
  | funcDecl (name : String) (params : List String) (body : List AstNode)
  | printStmt (expr : AstNode)

/-- Modelled from the spec: `isExpr` from the missing `src/ast.ts`.  The spec
classifies as an expression "literal, identifier, unary/binary operation, or
invocation"; declarations and print statements are not expressions. -/
def isExpr : AstNode → Bool
  | .intLit _ | .stringLit _ | .ident _ => true
  | .unary _ _ | .binary _ _ _ | .invoke _ _ => true
  | .valDecl _ _ | .funcDecl _ _ _ | .printStmt _ => false

/-- Runtime values, from `src/compiler.ts` (`Value`).  A function value owns
its private instruction sequence. -/
inductive Value where
  | number (value : Int)
  | string (value : String)
  | nil
  | function (name : String) (code : List Nat)
deriving DecidableEq, Repr

/-- The `type` tag of a value as the TS code reads it (`val.type`), used in
error messages. -/
def Value.typeName : Value → String
  | .number _ => "number"
  | .string _ => "string"
  | .nil => "nil"
  | .function _ _ => "function"

def Value.isString : Value → Bool
  | .string _ => true
  | _ => false

def Value.isFunction : Value → Bool
  | .function _ _ => true
  | _ => false

/-- One entry of the compiler's `locals` table (`interface Local`). -/
structure Local where
  name : String
  depth : Nat
deriving DecidableEq, Repr

/-- A JS object reference.  `lodash.eq` (used by `addConstant`) performs a
SameValueZero comparison, which on objects is reference equality, not a deep
structural comparison; to capture this the pool stores each constant as the
described `Value` paired with the allocation id of the object that was built
at the `addConstant` call site. -/
structure Obj where
  val : Value
  ref : Nat
deriving DecidableEq, Repr

/-- `eq` from lodash (SameValueZero): on objects, reference equality. -/
def lodashEq (a b : Obj) : Bool := a.ref == b.ref

/-- Compiler state: the fields of `class Compiler` (`constants`, `locals`,
`code`, `depth`) plus `nextRef`, the allocation counter used to hand out
fresh object references. -/
structure CompState where
  constants : List Obj
  locals : List Local
  code : List Nat
  depth : Nat
  nextRef : Nat
deriving DecidableEq, Repr

def initComp : CompState := ⟨[], [], [], 0, 0⟩

/-- Compilation failures: the strings thrown by `src/compiler.ts`, as a
closed enumeration carrying the interpolated context. -/
inductive CompileErr where
  | unknownIdentifier (name : String)
  | unknownOperator (op : TokenType)
  | duplicateIdentifier (name : String)
deriving DecidableEq, Repr

/-- `Compiler.emit(...bytes)`: append to the active code buffer. -/
def emit (st : CompState) (bytes : List Nat) : CompState :=
  { st with code := st.code ++ bytes }

/-- Construction of a JS object literal: a fresh reference every time. -/
def alloc (v : Value) (st : CompState) : Obj × CompState :=
  (⟨v, st.nextRef⟩, { st with nextRef := st.nextRef + 1 })

/-- The scan loop of `addConstant`: first index whose entry is `lodashEq` to
the probe. -/
def scanPool (v : Obj) : List Obj → Option Nat
  | [] => none
  | c :: rest =>
      if lodashEq v c then some 0 else (scanPool v rest).map (· + 1)

/-- `Compiler.addConstant(value)`: linear scan with lodash `eq`; return the
index of a hit, otherwise append and return the new index. -/
def addConstant (v : Obj) (st : CompState) : Nat × CompState :=
  match scanPool v st.constants with
  | some i => (i, st)
  | none => (st.constants.length, { st with constants := st.constants ++ [v] })

/-- The backward scan of `visitIdent`: `for (let i = locals.length - 1;
i >= 0; i--)` returning the first `i` (hence the largest index) whose entry
is named `name`. -/
def scanBack (name : String) : List Local → Option Nat
  | [] => none
  | l :: rest =>
      match scanBack name rest with
      | some j => some (j + 1)
      | none => if l.name == name then some 0 else none

/-- `Compiler.visitIdent`: restrict the locals to the current depth, scan
backward, emit a load of the found index, or fail. -/
def visitIdent (name : String) (st : CompState) : Except CompileErr CompState :=
  let locals := st.locals.filter (fun l => l.depth == st.depth)
  match scanBack name locals with
  | some i => .ok (emit st [7, i])
  | none => .error (.unknownIdentifier name)

/-- `Compiler.visitIntLit`: the literal 0 takes the fast opcode
(`Opcode.const0 + node.value`, which under the guard `node.value === 0` is
opcode 0); every other literal goes through the constant pool. -/
def visitIntLit (value : Int) (st : CompState) : Except CompileErr CompState :=
  if value == 0 then
    .ok (emit st [0])
  else
    let (o, st₁) := alloc (.number value) st
    let (idx, st₂) := addConstant o st₁
    .ok (emit st₂ [3, idx])

/-- `Compiler.visitStringLit`. -/
def visitStringLit (value : String) (st : CompState) : Except CompileErr CompState :=
  let (o, st₁) := alloc (.string value) st
  let (idx, st₂) := addConstant o st₁
  .ok (emit st₂ [3, idx])

/-- The duplicate-binding test shared by `visitValDecl` and `visitFuncDecl`:
`this.locals.some(local => local.name === name && local.depth === this.depth)`. -/
def alreadyExists (name : String) (st : CompState) : Bool :=
  st.locals.any (fun l => l.name == name && l.depth == st.depth)

mutual

/-- `Visitor.visit` (`src/visitor.ts`) fused with the `visitXxx` methods of
`Compiler` (`src/compiler.ts`); each branch is one visitor method:
* `visitUnary`: compile the operand; only prefix minus is supported.
* `visitBinary`: compile left then right; only `+` and `-` are supported.
* `visitInvoke`: emit the nil return-slot placeholder, compile the arguments
  left to right, compile the callee, then emit `invoke argc`.
* `visitValDecl`: duplicate check at the current depth, compile the
  initializer (its stack cell becomes the binding's slot), record the local.
* `visitFuncDecl`: duplicate check; save the code buffer and depth; compile
  the body in a fresh buffer one depth deeper with `#ret` and the parameters
  pre-bound; store the body's value into slot 0; the cleanup loop pops
  `numLocals - 1` locals emitting a pop opcode for each, then one more
  `locals.pop()` drops `#ret` from the table without emitting; emit `return`;
  restore buffer and depth, bind the function name at the outer depth, intern
  the function value and emit its constant load.
* `visitPrint`: compile the operand, emit `print`. -/
def visit (node : AstNode) (st : CompState) : Except CompileErr CompState :=
  match node with
  | .intLit v => visitIntLit v st
  | .stringLit v => visitStringLit v st
  | .ident name => visitIdent name st
  | .unary op e => do
      let st₁ ← visit e st
      match op with
      | .minus => .ok (emit st₁ [4])
      | _ => .error (.unknownOperator op)
  | .binary op l r => do
      let st₁ ← visit l st
      let st₂ ← visit r st₁
      match op with
      | .plus => .ok (emit st₂ [5])
      | .minus => .ok (emit st₂ [6])
      | _ => .error (.unknownOperator op)
  | .invoke target args => do
      let st₁ := emit st [12]
      let st₂ ← visitArgs args st₁
      let st₃ ← visit target st₂
      .ok (emit st₃ [10, args.length])
  | .valDecl name value =>
      if alreadyExists name st then
        .error (.duplicateIdentifier name)
      else do
        let st₁ ← visit value st
        .ok { st₁ with locals := st₁.locals ++ [⟨name, st₁.depth⟩] }
  | .funcDecl name params body =>
      if alreadyExists name st then
        .error (.duplicateIdentifier name)
      else do
        let d := st.depth + 1
        let stIn : CompState :=
          { st with code := [], depth := d,
                    locals := st.locals ++ ⟨"#ret", d⟩ :: params.map (⟨·, d⟩) }
        let st₁ ← compileBlock body stIn
        let st₂ := emit st₁ [8, 0]
        let numLocals := (st₂.locals.filter (fun l => l.depth == st₂.depth)).length
        let st₃ : CompState :=
          { st₂ with code := st₂.code ++ List.replicate (numLocals - 1) 11,
                     locals := st₂.locals.take (st₂.locals.length - numLocals) }
        let st₄ := emit st₃ [13]
        let st₅ : CompState :=
          { st₄ with code := st.code, depth := st.depth,
                     locals := st₄.locals ++ [⟨name, st.depth⟩] }
        let (o, st₆) := alloc (.function name st₄.code) st₅
        let (idx, st₇) := addConstant o st₆
        .ok (emit st₇ [3, idx])
  | .printStmt e => do
      let st₁ ← visit e st
      .ok (emit st₁ [9])

/-- The `for (const arg of node.args)` loop of `visitInvoke`. -/
def visitArgs (args : List AstNode) (st : CompState) : Except CompileErr CompState :=
  match args with
  | [] => .ok st
  | a :: rest => do
      visitArgs rest (← visit a st)

/-- `Compiler.compileBlock`: compile each node; after a non-final expression
emit a pop, after a final non-expression emit a nil push. -/
def compileBlock (nodes : List AstNode) (st : CompState) : Except CompileErr CompState :=
  match nodes with
  | [] => .ok st
  | [n] => do
      let st₁ ← visit n st
      if isExpr n then .ok st₁ else .ok (emit st₁ [12])
  | n :: rest => do
      let st₁ ← visit n st
      compileBlock rest (if isExpr n then emit st₁ [11] else st₁)

end

/-- The compiled output of one program (`interface Module`); the constant
pool is the sequence of interned values. -/
structure Module where
  constants : List Value
  code : List Nat
deriving DecidableEq, Repr

/-- `Compiler.compile`: compile the top-level statements as a block, emit the
final `return`, package the module. -/
def compile (nodes : List AstNode) : Except CompileErr Module :=
  (compileBlock nodes initComp).map fun st =>
    { code := st.code ++ [13], constants := st.constants.map (·.val) }

/-! ## The virtual machine (`src/vm.ts`) -/

/-- `valueToString` from `src/vm.ts`: the textual rendering used by `print`
and by string-coercing `add`. -/
def valueToString : Value → String
  | .number v => toString v
  | .string s => s
  | .nil => "nil"
  | .function name _ => "<#fn " ++ name ++ ">"

/-- One call frame (`interface CallFrame`).  `stackOffset` is an `Int`
because `invoke` computes it as `stack.length - 1 - arity`, which in the
source is an untruncated JS number and can go negative. -/
structure CallFrame where
  ip : Nat
  code : List Nat
  stackOffset : Int
deriving DecidableEq, Repr

/-- VM failures: the strings thrown by `src/vm.ts`, as a closed enumeration.
`noFrame` stands for the TypeError the JS code raises when `currentFrame` is
read off an empty call stack, and `truncatedOperand` for the behaviour of
reading an instruction operand past the end of the code array (compiled code
never does either). -/
inductive VMErr where
  | emptyStack
  | constantOutOfRange (idx : Nat)
  | unexpectedTypeNeg (t : String)
  | unexpectedTypesAdd (l r : String)
  | unexpectedTypesSub (l r : String)
  | stackOutOfRange (idx : Int)
  | notInvocable (t : String)
  | noFrame
  | truncatedOperand
deriving DecidableEq, Repr

/-- The state of `class VM`: the module's constant pool, the call stack
(head = innermost frame), the value stack (index 0 = bottom), the text
printed so far, and the halt flag. -/
structure VMState where
  constants : List Value
  callStack : List CallFrame
  stack : List Value
  output : List String
  halted : Bool
deriving DecidableEq, Repr

/-- `VM.push`. -/
def VMState.push (s : VMState) (v : Value) : VMState :=
  { s with stack := s.stack ++ [v] }

/-- `VM.pop` views: the value that `stack.pop()` would return, if any. -/
def VMState.top? (s : VMState) : Option Value := s.stack.getLast?

/-- The state after `stack.pop()` removed the top value. -/
def VMState.popped (s : VMState) : VMState :=
  { s with stack := s.stack.dropLast }

/-- The result of one `handleInstr` call.  A JS `throw` leaves the VM object
in its mutated state, so the error constructor carries the state at the
moment of the throw. -/
inductive StepRes where
  | ok (s : VMState)
  | err (e : VMErr) (s : VMState)
deriving DecidableEq, Repr

/-- The `constant` case of `handleInstr`: push `module.constants[i]`. -/
def runConstant (arg? : Option Nat) (s₂ : VMState) : StepRes :=
  match arg? with
  | none => .err .truncatedOperand s₂
  | some i =>
    match s₂.constants[i]? with
    | none => .err (.constantOutOfRange i) s₂
    | some c => .ok (s₂.push c)

/-- The `neg` case: pop; must be a number; push its negation. -/
def runNeg (s₁ : VMState) : StepRes :=
  match s₁.top? with
  | none => .err .emptyStack s₁
  | some v =>
    match v with
    | .number n => .ok (s₁.popped.push (.number (-n)))
    | _ => .err (.unexpectedTypeNeg v.typeName) s₁.popped

/-- The `add` case: pop right, pop left; string coercion when either side is
a string, else the numeric sum, else a type mismatch. -/
def runAdd (s₁ : VMState) : StepRes :=
  match s₁.top? with
  | none => .err .emptyStack s₁
  | some r =>
    let s₂ := s₁.popped
    match s₂.top? with
    | none => .err .emptyStack s₂
    | some l =>
      let s₃ := s₂.popped
      if l.isString || r.isString then
        .ok (s₃.push (.string (valueToString l ++ valueToString r)))
      else
        match l, r with
        | .number a, .number b => .ok (s₃.push (.number (a + b)))
        | _, _ => .err (.unexpectedTypesAdd l.typeName r.typeName) s₃

/-- The `sub` case: pop right, pop left; both must be numbers. -/
def runSub (s₁ : VMState) : StepRes :=
  match s₁.top? with
  | none => .err .emptyStack s₁
  | some r =>
    let s₂ := s₁.popped
    match s₂.top? with
    | none => .err .emptyStack s₂
    | some l =>
      let s₃ := s₂.popped
      match l, r with
      | .number a, .number b => .ok (s₃.push (.number (a - b)))
      | _, _ => .err (.unexpectedTypesSub l.typeName r.typeName) s₃

/-- The `load` case: push `stack[slot + frame.stackOffset]`; an out-of-range
(or negative, hence `undefined`) read throws. -/
def runLoad (arg? : Option Nat) (off : Int) (s₂ : VMState) : StepRes :=
  match arg? with
  | none => .err .truncatedOperand s₂
  | some slot =>
    let idx : Int := slot + off
    match (if 0 ≤ idx then s₂.stack[idx.toNat]? else none) with
    | none => .err (.stackOutOfRange slot) s₂
    | some v => .ok (s₂.push v)

/-- The `store` case: bounds test against `slotIdx >= stack.length` first,
then pop and write; a write at index `stack.length` is a JS array append, a
write at a negative index leaves the array untouched. -/
def runStore (arg? : Option Nat) (off : Int) (s₂ : VMState) : StepRes :=
  match arg? with
  | none => .err .truncatedOperand s₂
  | some slot =>
    let idx : Int := slot + off
    if (s₂.stack.length : Int) ≤ idx then
      .err (.stackOutOfRange idx) s₂
    else
      match s₂.top? with
      | none => .err .emptyStack s₂
      | some v =>
        let s₃ := s₂.popped
        if 0 ≤ idx then
          if idx.toNat = s₃.stack.length then .ok (s₃.push v)
          else .ok { s₃ with stack := s₃.stack.set idx.toNat v }
        else .ok s₃

/-- The `print` case: pop and render to the output stream. -/
def runPrint (s₁ : VMState) : StepRes :=
  match s₁.top? with
  | none => .err .emptyStack s₁
  | some v => .ok { s₁.popped with output := s₁.output ++ [valueToString v] }

/-- The `invoke` case: pop the callee, require a function value, push a
frame at instruction pointer 0 over the callee's code with stack-offset
`stack.length - 1 - arity` (stack length measured after the pop). -/
def runInvoke (arg? : Option Nat) (s₂ : VMState) : StepRes :=
  match arg? with
  | none => .err .truncatedOperand s₂
  | some arity =>
    match s₂.top? with
    | none => .err .emptyStack s₂
    | some target =>
      let s₃ := s₂.popped
      match target with
      | .function _ fnCode =>
          .ok { s₃ with callStack :=
                  ⟨0, fnCode, (s₃.stack.length : Int) - 1 - arity⟩ :: s₃.callStack }
      | _ => .err (.notInvocable target.typeName) s₃

/-- The `pop` case. -/
def runPop (s₁ : VMState) : StepRes :=
  match s₁.top? with
  | none => .err .emptyStack s₁
  | some _ => .ok s₁.popped

/-- The `return` case: drop the frame, or halt when it is the only one. -/
def runReturn (s₁ : VMState) : StepRes :=
  match s₁.callStack with
  | _ :: g :: rest => .ok { s₁ with callStack := g :: rest }
  | _ => .ok { s₁ with halted := true }

/-- `VM.handleInstr`: fetch the opcode at the current frame's instruction
pointer (advancing it, and advancing it once more for a one-operand opcode)
and dispatch to the `case` arm, each of which is one `runXxx` function
above.  An opcode value with no `case` of its own — including the
`undefined` read past the end of the code — falls through the `switch` and
leaves everything but the instruction pointer unchanged. -/
def step : VMState → StepRes
  | ⟨C, [], stk, out, h⟩ => .err .noFrame ⟨C, [], stk, out, h⟩
  | ⟨C, f :: fs, stk, out, h⟩ =>
    let s₁ : VMState := ⟨C, { f with ip := f.ip + 1 } :: fs, stk, out, h⟩
    let s₂ : VMState := ⟨C, { f with ip := f.ip + 2 } :: fs, stk, out, h⟩
    match f.code[f.ip]? with
    | none => .ok s₁
    | some op =>
      if op ≤ 2 then .ok (s₁.push (.number op))
      else if op = 3 then runConstant f.code[f.ip + 1]? s₂
      else if op = 4 then runNeg s₁
      else if op = 5 then runAdd s₁
      else if op = 6 then runSub s₁
      else if op = 7 then runLoad f.code[f.ip + 1]? f.stackOffset s₂
      else if op = 8 then runStore f.code[f.ip + 1]? f.stackOffset s₂
      else if op = 9 then runPrint s₁
      else if op = 10 then runInvoke f.code[f.ip + 1]? s₂
      else if op = 11 then runPop s₁
      else if op = 12 then .ok (s₁.push .nil)
      else if op = 13 then runReturn s₁
      else .ok s₁

/-- Iterate `handleInstr` a bounded number of times, stopping early on a
throw.  (The TS `run` loop has no fuel; the bound only serves the shallow
embedding, every claim being stated at a sufficient bound.) -/
def runSteps : Nat → VMState → StepRes
  | 0, s => .ok s
  | n + 1, s =>
      match step s with
      | .ok s' => runSteps n s'
      | .err e s' => .err e s'

/-- `VM.run`: loop until `halted`, then `stack.pop() || nilValue`.  Returns
`none` when the fuel runs out before the machine halts. -/
def runVM : Nat → VMState → Except VMErr (Option Value)
  | 0, _ => .ok none
  | n + 1, s =>
      if s.halted then
        .ok (some (s.stack.getLast?.getD .nil))
      else
        match step s with
        | .ok s' => runVM n s'
        | .err e _ => .error e

/-- The VM constructor: one frame over the module's code with stack offset 0. -/
def initState (m : Module) : VMState :=
  { constants := m.constants, callStack := [⟨0, m.code, 0⟩],
    stack := [], output := [], halted := false }

/-- Compile and run at the given fuel. -/
def compileAndRun (nodes : List AstNode) (fuel : Nat) :
    Except CompileErr (Except VMErr (Option Value)) :=
  (compile nodes).map fun m => runVM fuel (initState m)

/-- The instruction byte the next `handleInstr` call would fetch. -/
def currentInstr (s : VMState) : Option Nat :=
  match s.callStack with
  | [] => none
  | f :: _ => f.code[f.ip]?

/-! ## Classification of statements that compile to straight-line code -/

/-- Declaration statements (the node kinds whose evaluated value stays on the
stack as the binding's slot). -/
def isDeclNode : AstNode → Bool
  | .valDecl _ _ | .funcDecl _ _ _ => true
  | _ => false

/-- Print statements. -/
def isPrintStmt : AstNode → Bool
  | .printStmt _ => true
  | _ => false

/-- Number of declaration statements in a block. -/
def numDecls (nodes : List AstNode) : Nat :=
  (nodes.filter isDeclNode).length

/-- Statement forms whose compiled code is straight-line: no invocation
anywhere in the emitted instruction stream, and operand positions of `-`,
binary operators, initializers and `print` filled with expression nodes, as
the parser produces them.  A function declaration's body is compiled into a
separate function constant, not into the surrounding block's stream, so it
is unrestricted here. -/
def straightStmt : AstNode → Bool
  | .intLit _ | .stringLit _ | .ident _ => true
  | .unary _ e => isExpr e && straightStmt e
  | .binary _ l r => isExpr l && straightStmt l && isExpr r && straightStmt r
  | .invoke _ _ => false
  | .valDecl _ v => isExpr v && straightStmt v
  | .funcDecl _ _ _ => true
  | .printStmt e => isExpr e && straightStmt e

/-- Straight-line bytecode: a well-formed instruction stream built from the
opcodes a straight statement block compiles to (no `store`, `invoke` or
`return`), indexed by its net stack effect on successful execution and by
its instruction count. -/
inductive StraightCode : List Nat → Int → Nat → Prop where
  | nil : StraightCode [] 0 0
  | push0 {r k n} : StraightCode r k n → StraightCode (0 :: r) (k + 1) (n + 1)
  | push1 {r k n} : StraightCode r k n → StraightCode (1 :: r) (k + 1) (n + 1)
  | push2 {r k n} : StraightCode r k n → StraightCode (2 :: r) (k + 1) (n + 1)
  | const {r k n} (i : Nat) : StraightCode r k n → StraightCode (3 :: i :: r) (k + 1) (n + 1)
  | neg {r k n} : StraightCode r k n → StraightCode (4 :: r) k (n + 1)
  | add {r k n} : StraightCode r k n → StraightCode (5 :: r) (k - 1) (n + 1)
  | sub {r k n} : StraightCode r k n → StraightCode (6 :: r) (k - 1) (n + 1)
  | load {r k n} (i : Nat) : StraightCode r k n → StraightCode (7 :: i :: r) (k + 1) (n + 1)
  | print {r k n} : StraightCode r k n → StraightCode (9 :: r) (k - 1) (n + 1)
  | pop {r k n} : StraightCode r k n → StraightCode (11 :: r) (k - 1) (n + 1)
  | nilv {r k n} : StraightCode r k n → StraightCode (12 :: r) (k + 1) (n + 1)

/-! ## Helper lemmas -/

theorem exc_bind_ok {ε α β : Type} (a : α) (f : α → Except ε β) :
    (Except.ok a >>= f) = f a := rfl

theorem exc_bind_error {ε α β : Type} (e : ε) (f : α → Except ε β) :
    ((Except.error e : Except ε α) >>= f) = .error e := rfl

theorem addConstant_code (v : Obj) (st : CompState) :
    (addConstant v st).2.code = st.code := by
  unfold addConstant
  split <;> rfl

theorem get_at_len {α : Type} (p l : List α) (x : α) :
    (p ++ x :: l)[p.length]? = some x := by
  induction p with
  | nil => simp
  | cons a p ih => simpa using ih

theorem get_at_len_succ {α : Type} (p l : List α) (x y : α) :
    (p ++ x :: y :: l)[p.length + 1]? = some y := by
  have h := get_at_len (p ++ [x]) l y
  simpa using h

theorem scanBack_eq_none {name : String} {ls : List Local} :
    scanBack name ls = none ↔ ∀ l ∈ ls, l.name ≠ name := by
  induction ls with
  | nil => simp [scanBack]
  | cons a ls ih =>
      rw [scanBack]
      cases hrec : scanBack name ls with
      | some j =>
          simp only [Option.map_some']
          constructor
          · intro h; cases h
          · intro h
            have hnone : ∀ l ∈ ls, l.name ≠ name := fun l hl => h l (by simp [hl])
            rw [ih.mpr hnone] at hrec
            cases hrec
      | none =>
          simp only [Option.map_none']
          constructor
          · intro h
            intro l hl
            rcases List.mem_cons.mp hl with rfl | hmem
            · intro hn
              simp [hn] at h
            · exact ih.mp hrec l hmem
          · intro h
            have ha : a.name ≠ name := h a (by simp)
            simp [ha]

theorem scanBack_none {name : String} {ls : List Local}
    (h : ∀ l ∈ ls, l.name ≠ name) : scanBack name ls = none :=
  scanBack_eq_none.mpr h

theorem scanBack_spec {name : String} {ls : List Local} {i : Nat}
    (h : scanBack name ls = some i) :
    ∃ hi : i < ls.length, (ls.get ⟨i, hi⟩).name = name ∧
      ∀ j, ∀ hj : j < ls.length, i < j → (ls.get ⟨j, hj⟩).name ≠ name := by
  induction ls generalizing i with
  | nil => simp [scanBack] at h
  | cons a ls ih =>
      rw [scanBack] at h
      cases hrec : scanBack name ls with
      | some j =>
          rw [hrec] at h
          simp only [Option.map_some', Option.some.injEq] at h
          subst h
          obtain ⟨hj, hname, hmax⟩ := ih hrec
          refine ⟨by simpa using Nat.succ_lt_succ hj, by simpa using hname, ?_⟩
          intro j' hj' hlt
          match j', hlt with
          | j' + 1, hlt =>
            exact hmax j' (by simpa using hj') (Nat.lt_of_succ_lt_succ hlt)
      | none =>
          rw [hrec] at h
          by_cases ha : a.name == name
          · simp only [Option.map_none', ha, if_true] at h
            cases h
            refine ⟨by simp, by simpa using ha, ?_⟩
            intro j hj hlt
            match j, hj with
            | j + 1, hj =>
              have hn := scanBack_eq_none.mp hrec (ls.get ⟨j, by simpa using hj⟩)
                (ls.get_mem _ _)
              simpa using hn
          · simp [ha] at h

/-- C1: the claim says `addConstant` deduplicates by deep structural
equality, so two structurally identical literals share one pool slot.  The
code compares with lodash `eq` (SameValueZero, i.e. reference equality on
objects) against freshly constructed objects, so the scan never hits:
compiling the program `5 5` produces two pool entries both holding the
number 5, and the second literal is compiled as a load of pool index 1. -/
theorem C1_structural_duplicates_get_distinct_slots :
    compile [.intLit 5, .intLit 5] =
      .ok { constants := [.number 5, .number 5], code := [3, 0, 11, 3, 1, 13] } := by
  rfl

/-- C2: the claim says the literals 0, 1 and 2 all compile to the dedicated
opcodes `const0`/`const1`/`const2`.  In the code only `node.value === 0`
takes the fast path: the literals 1 and 2 compile to a generic constant load
(opcode 3) of a fresh pool entry.  The VM side of the claim does hold:
executing opcode 0, 1 or 2 pushes the number 0, 1 or 2 (the opcode's offset
from `const0`). -/
theorem C2_only_zero_takes_fast_opcode :
    compile [.intLit 0] = .ok { constants := [], code := [0, 13] } ∧
    compile [.intLit 1] = .ok { constants := [.number 1], code := [3, 0, 13] } ∧
    compile [.intLit 2] = .ok { constants := [.number 2], code := [3, 0, 13] } ∧
    runSteps 1 ⟨[], [⟨0, [0], 0⟩], [], [], false⟩ =
      .ok ⟨[], [⟨1, [0], 0⟩], [.number 0], [], false⟩ ∧
    runSteps 1 ⟨[], [⟨0, [1], 0⟩], [], [], false⟩ =
      .ok ⟨[], [⟨1, [1], 0⟩], [.number 1], [], false⟩ ∧
    runSteps 1 ⟨[], [⟨0, [2], 0⟩], [], [], false⟩ =
      .ok ⟨[], [⟨1, [2], 0⟩], [.number 2], [], false⟩ := by
  refine ⟨rfl, rfl, rfl, rfl, rfl, rfl⟩

/-- C3 counterexample: the claim says a function that invokes itself with
decreasing arguments compiles successfully.  It does not: the function's
name is bound in the enclosing scope only after its body has been compiled,
and identifier resolution searches only the current depth, so the
self-reference inside `def f(n) { f(n - 1) }` fails compilation with an
unknown-identifier error. -/
theorem C3_counterexample :
    compile [.funcDecl "f" ["n"]
      [.invoke (.ident "f") [.binary .minus (.ident "n") (.intLit 1)]]] =
      .error (.unknownIdentifier "f") := by
  rfl

/-- C4 counterexample: the claim says executing the code emitted by
`compileBlock` always leaves a net stack-depth increase of exactly one.  For
the one-statement block `const x = 5` the emitted code is
`constant 0; nil`, and executing it from an empty stack leaves two values
(the binding's slot plus the block's nil result). -/
theorem C4_counterexample :
    compileBlock [.valDecl "x" (.intLit 5)] initComp =
      .ok { constants := [⟨.number 5, 0⟩], locals := [⟨"x", 0⟩],
            code := [3, 0, 12], depth := 0, nextRef := 1 } ∧
    runSteps 2 ⟨[.number 5], [⟨0, [3, 0, 12], 0⟩], [], [], false⟩ =
      .ok ⟨[.number 5], [⟨3, [3, 0, 12], 0⟩], [.number 5, .nil], [], false⟩ := by
  exact ⟨rfl, rfl⟩

/-- C5 counterexample: the claim says every compiled program executes to
completion and returns the final stack value.  The program `'a' - 1`
compiles, but its execution throws a type-mismatch error instead of
completing with a value. -/
theorem C5_counterexample :
    compile [.binary .minus (.stringLit "a") (.intLit 1)] =
      .ok { constants := [.string "a", .number 1], code := [3, 0, 3, 1, 6, 13] } ∧
    runVM 10 (initState { constants := [.string "a", .number 1],
                          code := [3, 0, 3, 1, 6, 13] }) =
      .error (.unexpectedTypesSub "string" "number") := by
  exact ⟨rfl, rfl⟩

/-- C10 counterexample: the claim says that whenever a store's target index
is not within the stack bounds the VM raises the stack-index error before
popping, leaving the stack unchanged.  A store whose target index is
negative (reachable from a plain module, because `invoke` computes the
frame's stack-offset as `stack.length - 1 - arity` with no lower bound)
raises no error at all and pops the value: after four steps the machine is
about to execute `store 0` in a frame with stack-offset −6 and stack
`[0, 0]`; the fifth step completes without error and shrinks the stack to
`[0]`. -/
theorem C10_counterexample :
    runSteps 4 (initState { constants := [.function "f" [0, 0, 8, 0]],
                            code := [3, 0, 10, 5, 13] }) =
      .ok ⟨[.function "f" [0, 0, 8, 0]],
           [⟨2, [0, 0, 8, 0], -6⟩, ⟨4, [3, 0, 10, 5, 13], 0⟩],
           [.number 0, .number 0], [], false⟩ ∧
    runSteps 5 (initState { constants := [.function "f" [0, 0, 8, 0]],
                            code := [3, 0, 10, 5, 13] }) =
      .ok ⟨[.function "f" [0, 0, 8, 0]],
           [⟨4, [0, 0, 8, 0], -6⟩, ⟨4, [3, 0, 10, 5, 13], 0⟩],
           [.number 0], [], false⟩ := by
  exact ⟨rfl, rfl⟩

/-- C3 amended: a function declaration whose body invokes the function's own
name (here with the decreasing argument `p - k`) never compiles: the
function's name is bound in the enclosing scope only after the body has been
compiled, and resolution inside the body sees only the `#ret` slot and the
parameters at the body's depth, so compilation fails with the
unknown-identifier error, whatever the function's name, parameter name and
literal are. -/
theorem C3_self_invocation_fails (f p : String) (k : Int)
    (hret : f ≠ "#ret") (hp : f ≠ p) :
    compile [.funcDecl f [p]
      [.invoke (.ident f) [.binary .minus (.ident p) (.intLit k)]]] =
      .error (.unknownIdentifier f) := by
  have hret' : ("#ret" == f) = false := by
    simp only [beq_eq_false_iff_ne]
    exact Ne.symm hret
  have hp' : (p == f) = false := by
    simp only [beq_eq_false_iff_ne]
    exact Ne.symm hp
  by_cases hk : k = 0
  · subst hk
    simp [compile, compileBlock, visit, visitArgs, visitIdent, visitIntLit,
      alreadyExists, emit, alloc, addConstant, scanPool, scanBack, lodashEq,
      initComp, hret', hp', exc_bind_ok, exc_bind_error, Except.map]
  · have hk' : (k == 0) = false := by simp [hk]
    simp [compile, compileBlock, visit, visitArgs, visitIdent, visitIntLit,
      alreadyExists, emit, alloc, addConstant, scanPool, scanBack, lodashEq,
      initComp, hret', hp', hk', exc_bind_ok, exc_bind_error, Except.map]

/-- C3 witness: the concrete self-recursive declaration `def g(m) { g(m - 2) }`
fails to compile with the unknown-identifier error. -/
theorem C3_self_invocation_fails_witness :
    compile [.funcDecl "g" ["m"]
      [.invoke (.ident "g") [.binary .minus (.ident "m") (.intLit 2)]]] =
      .error (.unknownIdentifier "g") :=
  C3_self_invocation_fails "g" "m" 2 (by decide) (by decide)

/-- C10 amended: when a store's target index (slot operand plus the frame's
stack-offset) is at least the stack length, the VM raises the stack-index
error before popping, so the stack is unchanged by the failed store; a
negative target index, however, is not detected: the value is popped and
the write is lost, with no error raised. -/
theorem C10_store_bounds (C : List Value) (fcode : List Nat) (p : Nat) (off : Int)
    (fs : List CallFrame) (s : List Value) (out : List String) (slot : Nat)
    (hop : fcode[p]? = some 8) (harg : fcode[p + 1]? = some slot) :
    ((s.length : Int) ≤ slot + off →
        step ⟨C, ⟨p, fcode, off⟩ :: fs, s, out, false⟩ =
          .err (.stackOutOfRange (slot + off))
               ⟨C, ⟨p + 2, fcode, off⟩ :: fs, s, out, false⟩) ∧
    (slot + off < 0 → s ≠ [] →
        step ⟨C, ⟨p, fcode, off⟩ :: fs, s, out, false⟩ =
          .ok ⟨C, ⟨p + 2, fcode, off⟩ :: fs, s.dropLast, out, false⟩) := by
  constructor
  · intro hle
    simp [step, runStore, hop, harg, hle]
  · intro hneg hne
    have hnle : ¬ ((s.length : Int) ≤ slot + off) := by
      have h0 : (0 : Int) ≤ (s.length : Int) := Int.ofNat_nonneg _
      omega
    have h0le : ¬ ((0 : Int) ≤ slot + off) := by omega
    rcases List.eq_nil_or_concat s with rfl | ⟨s₀, v, rfl⟩
    · exact absurd rfl hne
    · simp only [List.concat_eq_append] at hnle ⊢
      simp [step, runStore, hop, harg, hnle, h0le, VMState.top?, VMState.popped,
        List.getLast?_concat, List.dropLast_concat]
      omega

/-- C10 witness: a store of slot 0 in a frame with stack-offset 5 over the
one-value stack `[7]` raises the stack-index error for target 5 and leaves
the stack unchanged; a store of slot 0 at stack-offset −2 pops silently. -/
theorem C10_store_bounds_witness :
    step ⟨[], [⟨0, [8, 0], 5⟩], [.number 7], [], false⟩ =
      .err (.stackOutOfRange 5) ⟨[], [⟨2, [8, 0], 5⟩], [.number 7], [], false⟩ ∧
    step ⟨[], [⟨0, [8, 0], -2⟩], [.number 7], [], false⟩ =
      .ok ⟨[], [⟨2, [8, 0], -2⟩], [], [], false⟩ := by
  constructor
  · have h := (C10_store_bounds [] [8, 0] 0 5 [] [.number 7] [] 0 rfl rfl).1
      (by norm_num)
    simpa using h
  · have h := (C10_store_bounds [] [8, 0] 0 (-2) [] [.number 7] [] 0 rfl rfl).2
      (by norm_num) (by simp)
    simpa using h

/-- C7: executing `add` pops the right then the left operand; if either is a
string it pushes the concatenation of their textual renderings (so the left
operand comes first in the result); if both are numbers it pushes their sum;
any other combination throws the type-mismatch error, with both operands
already popped. -/
theorem C7_add_semantics (C : List Value) (fcode : List Nat) (p : Nat) (off : Int)
    (fs : List CallFrame) (s : List Value) (l r : Value) (out : List String)
    (hop : fcode[p]? = some 5) :
    ((l.isString = true ∨ r.isString = true) →
        step ⟨C, ⟨p, fcode, off⟩ :: fs, s ++ [l, r], out, false⟩ =
          .ok ⟨C, ⟨p + 1, fcode, off⟩ :: fs,
               s ++ [.string (valueToString l ++ valueToString r)], out, false⟩) ∧
    (∀ a b, l = .number a → r = .number b →
        step ⟨C, ⟨p, fcode, off⟩ :: fs, s ++ [l, r], out, false⟩ =
          .ok ⟨C, ⟨p + 1, fcode, off⟩ :: fs, s ++ [.number (a + b)], out, false⟩) ∧
    (l.isString = false → r.isString = false →
     ((∀ a, l ≠ .number a) ∨ (∀ b, r ≠ .number b)) →
        step ⟨C, ⟨p, fcode, off⟩ :: fs, s ++ [l, r], out, false⟩ =
          .err (.unexpectedTypesAdd l.typeName r.typeName)
               ⟨C, ⟨p + 1, fcode, off⟩ :: fs, s, out, false⟩) := by
  refine ⟨?_, ?_, ?_⟩
  · intro hstr
    have hs : (l.isString || r.isString) = true := by
      rcases hstr with h | h <;> simp [h]
    simp only [step, runAdd, hop, VMState.top?, VMState.popped, VMState.push]
    norm_num [List.getLast?_append_cons, List.getLast?_concat,
      List.dropLast_append_cons, List.dropLast_concat, hs]
  · rintro a b rfl rfl
    simp only [step, runAdd, hop, VMState.top?, VMState.popped, VMState.push]
    norm_num [List.getLast?_append_cons, List.getLast?_concat,
      List.dropLast_append_cons, List.dropLast_concat, Value.isString]
  · intro hl hr hnum
    have hs : (l.isString || r.isString) = false := by simp [hl, hr]
    simp only [step, runAdd, hop, VMState.top?, VMState.popped, VMState.push]
    norm_num [List.getLast?_append_cons, List.getLast?_concat,
      List.dropLast_append_cons, List.dropLast_concat, hs]
    cases l <;> cases r <;> simp_all [Value.isString]

/-- C8: executing `invoke argc` pops the top of the stack as the callee;
when the callee is not a function the VM throws `NotInvocable` and the only
change besides the advanced instruction pointer is that pop (the rest of the
stack, the output and the pool are untouched); when the callee is a function
a frame is pushed with instruction pointer 0, the callee's code, and a
stack-offset of `stack.length - 1 - argc` measured after the callee was
popped — the index of the nil placeholder sitting below the `argc`
arguments. -/
theorem C8_invoke_semantics (C : List Value) (fcode : List Nat) (p : Nat) (off : Int)
    (fs : List CallFrame) (s : List Value) (target : Value) (argc : Nat)
    (out : List String)
    (hop : fcode[p]? = some 10) (harg : fcode[p + 1]? = some argc) :
    (∀ fname fc, target = .function fname fc →
        step ⟨C, ⟨p, fcode, off⟩ :: fs, s ++ [target], out, false⟩ =
          .ok ⟨C, ⟨0, fc, (s.length : Int) - 1 - argc⟩ :: ⟨p + 2, fcode, off⟩ :: fs,
               s, out, false⟩) ∧
    (target.isFunction = false →
        step ⟨C, ⟨p, fcode, off⟩ :: fs, s ++ [target], out, false⟩ =
          .err (.notInvocable target.typeName)
               ⟨C, ⟨p + 2, fcode, off⟩ :: fs, s, out, false⟩) := by
  refine ⟨?_, ?_⟩
  · rintro fname fc rfl
    simp [step, runInvoke, hop, harg, VMState.top?, VMState.popped, VMState.push]
  · intro hfn
    cases target <;>
      simp_all [step, runInvoke, hop, harg, VMState.top?, VMState.popped,
        VMState.push, Value.isFunction]

theorem scanBack_concat {name : String} {x : Local} (ls : List Local)
    (h : x.name = name) : scanBack name (ls ++ [x]) = some ls.length := by
  induction ls with
  | nil => simp [scanBack, h]
  | cons a ls ih => simp [scanBack, ih]

theorem scanBack_mem {name : String} {ls : List Local}
    (h : ∃ l ∈ ls, l.name = name) : ∃ i, scanBack name ls = some i := by
  induction ls with
  | nil => simp at h
  | cons a ls ih =>
      rw [scanBack]
      cases hrec : scanBack name ls with
      | some j => exact ⟨j + 1, rfl⟩
      | none =>
          obtain ⟨l, hl, hn⟩ := h
          rcases List.mem_cons.mp hl with rfl | hmem
          · exact ⟨0, by simp [hn]⟩
          · obtain ⟨i, hi⟩ := ih ⟨l, hmem, hn⟩
            rw [hi] at hrec
            cases hrec

/-- C7 witness: `1 + 'a'` yields the string `'1a'`, `'a' + 1` yields
`'a1'`, `1 + 2` yields the number `3`, and `nil + 1` throws the
type-mismatch error with both operands popped. -/
theorem C7_add_semantics_witness :
    step ⟨[], [⟨0, [5], 0⟩], [.number 1, .string "a"], [], false⟩ =
      .ok ⟨[], [⟨1, [5], 0⟩], [.string "1a"], [], false⟩ ∧
    step ⟨[], [⟨0, [5], 0⟩], [.string "a", .number 1], [], false⟩ =
      .ok ⟨[], [⟨1, [5], 0⟩], [.string "a1"], [], false⟩ ∧
    step ⟨[], [⟨0, [5], 0⟩], [.number 1, .number 2], [], false⟩ =
      .ok ⟨[], [⟨1, [5], 0⟩], [.number 3], [], false⟩ ∧
    step ⟨[], [⟨0, [5], 0⟩], [.nil, .number 1], [], false⟩ =
      .err (.unexpectedTypesAdd "nil" "number") ⟨[], [⟨1, [5], 0⟩], [], [], false⟩ := by
  refine ⟨?_, ?_, ?_, ?_⟩
  · have h := (C7_add_semantics [] [5] 0 0 [] [] (.number 1) (.string "a") []
      rfl).1 (Or.inr rfl)
    simpa using h
  · have h := (C7_add_semantics [] [5] 0 0 [] [] (.string "a") (.number 1) []
      rfl).1 (Or.inl rfl)
    simpa using h
  · have h := (C7_add_semantics [] [5] 0 0 [] [] (.number 1) (.number 2) []
      rfl).2.1 1 2 rfl rfl
    simpa using h
  · have h := (C7_add_semantics [] [5] 0 0 [] [] .nil (.number 1) []
      rfl).2.2 rfl rfl (Or.inl (by intro a h; cases h))
    simpa using h

/-- C8 witness: invoking a function value pushes a frame whose stack-offset
(0 here) addresses the nil placeholder below the single argument; invoking
a string throws `NotInvocable` with only the callee popped. -/
theorem C8_invoke_semantics_witness :
    step ⟨[], [⟨0, [10, 1], 0⟩], [.nil, .number 7, .function "g" [13]], [], false⟩ =
      .ok ⟨[], [⟨0, [13], 0⟩, ⟨2, [10, 1], 0⟩], [.nil, .number 7], [], false⟩ ∧
    step ⟨[], [⟨0, [10, 1], 0⟩], [.nil, .number 7, .string "s"], [], false⟩ =
      .err (.notInvocable "string") ⟨[], [⟨2, [10, 1], 0⟩], [.nil, .number 7], [], false⟩ := by
  constructor
  · have h := (C8_invoke_semantics [] [10, 1] 0 0 [] [.nil, .number 7]
      (.function "g" [13]) 1 [] rfl rfl).1 "g" [13] rfl
    simpa using h
  · have h := (C8_invoke_semantics [] [10, 1] 0 0 [] [.nil, .number 7]
      (.string "s") 1 [] rfl rfl).2 rfl
    simpa using h

/-- C6: identifier resolution searches only the locals of the current
lexical depth; when no binding there carries the name, compilation fails
with the unknown-identifier error; otherwise a load is emitted whose slot
operand is the index, within the depth-filtered locals in declaration
order, of the most recently declared (maximal-index) binding with that
name — the backward scan makes the most recent binding win. -/
theorem C6_ident_resolution (name : String) (st : CompState) :
    ((∀ l ∈ st.locals, l.depth = st.depth → l.name ≠ name) →
        visitIdent name st = .error (.unknownIdentifier name)) ∧
    ((∃ l ∈ st.locals, l.depth = st.depth ∧ l.name = name) →
        ∃ i, ∃ hi : i < (st.locals.filter (fun l => l.depth == st.depth)).length,
          visitIdent name st = .ok (emit st [7, i]) ∧
          ((st.locals.filter (fun l => l.depth == st.depth)).get ⟨i, hi⟩).name = name ∧
          ∀ j, ∀ hj : j < (st.locals.filter (fun l => l.depth == st.depth)).length,
            i < j →
              ((st.locals.filter (fun l => l.depth == st.depth)).get ⟨j, hj⟩).name ≠ name) := by
  constructor
  · intro h
    have hnone : scanBack name (st.locals.filter (fun l => l.depth == st.depth)) = none := by
      apply scanBack_none
      intro l hl
      have hm := List.mem_filter.mp hl
      exact h l hm.1 (by simpa using hm.2)
    simp [visitIdent, hnone]
  · rintro ⟨l, hl, hd, hn⟩
    have hmem : ∃ x ∈ st.locals.filter (fun l => l.depth == st.depth), x.name = name :=
      ⟨l, List.mem_filter.mpr ⟨hl, by simp [hd]⟩, hn⟩
    obtain ⟨i, hi⟩ := scanBack_mem hmem
    obtain ⟨hlt, hname, hmax⟩ := scanBack_spec hi
    exact ⟨i, hlt, by simp [visitIdent, hi], hname, hmax⟩

/-- C6 witness: with locals `x, y, x` all at depth 0, looking up `x` emits a
load of slot 2 — the most recently declared `x` wins — and looking up `z`
fails with the unknown-identifier error. -/
theorem C6_ident_resolution_witness :
    visitIdent "z" ⟨[], [⟨"x", 0⟩, ⟨"y", 0⟩, ⟨"x", 0⟩], [], 0, 0⟩ =
      .error (.unknownIdentifier "z") ∧
    ∃ i, ∃ hi : i < ([⟨"x", 0⟩, ⟨"y", 0⟩, ⟨"x", 0⟩] : List Local).length,
      visitIdent "x" ⟨[], [⟨"x", 0⟩, ⟨"y", 0⟩, ⟨"x", 0⟩], [], 0, 0⟩ =
        .ok (emit ⟨[], [⟨"x", 0⟩, ⟨"y", 0⟩, ⟨"x", 0⟩], [], 0, 0⟩ [7, i]) ∧
      (([⟨"x", 0⟩, ⟨"y", 0⟩, ⟨"x", 0⟩] : List Local).get ⟨i, hi⟩).name = "x" := by
  constructor
  · exact (C6_ident_resolution "z" ⟨[], [⟨"x", 0⟩, ⟨"y", 0⟩, ⟨"x", 0⟩], [], 0, 0⟩).1
      (by decide)
  · obtain ⟨i, hi, hok, hname, _⟩ :=
      (C6_ident_resolution "x" ⟨[], [⟨"x", 0⟩, ⟨"y", 0⟩, ⟨"x", 0⟩], [], 0, 0⟩).2
        ⟨⟨"x", 0⟩, by simp, rfl, rfl⟩
    exact ⟨i, by simpa using hi, by simpa using hok, by simpa using hname⟩

/-- C9: declaring a value or function binding whose name is already bound at
the current lexical depth fails with the duplicate-identifier error; when
the name is not bound at the current depth (it may well be bound at another,
outer depth), a value declaration succeeds, records the binding at the
current depth, and a subsequent lookup of that name resolves to this new
innermost binding: the emitted slot is exactly the new binding's index in
the depth-filtered view. -/
theorem C9_duplicate_and_shadowing (st : CompState) (name : String) (v : AstNode)
    (params : List String) (body : List AstNode) :
    ((∃ l ∈ st.locals, l.name = name ∧ l.depth = st.depth) →
        visit (.valDecl name v) st = .error (.duplicateIdentifier name) ∧
        visit (.funcDecl name params body) st = .error (.duplicateIdentifier name)) ∧
    ((∀ l ∈ st.locals, ¬(l.name = name ∧ l.depth = st.depth)) →
      ∀ stv, visit v st = .ok stv →
        visit (.valDecl name v) st =
          .ok { stv with locals := stv.locals ++ [⟨name, stv.depth⟩] } ∧
        visitIdent name { stv with locals := stv.locals ++ [⟨name, stv.depth⟩] } =
          .ok (emit { stv with locals := stv.locals ++ [⟨name, stv.depth⟩] }
                [7, (stv.locals.filter (fun l => l.depth == stv.depth)).length])) := by
  constructor
  · rintro ⟨l, hl, hn, hd⟩
    have hdup : alreadyExists name st = true := by
      simp only [alreadyExists, List.any_eq_true]
      exact ⟨l, hl, by simp [hn, hd]⟩
    constructor <;> simp [visit, hdup]
  · intro h stv hv
    have hdup : alreadyExists name st = false := by
      simp only [alreadyExists, List.any_eq_false]
      intro l hl
      have := h l hl
      simp only [Bool.and_eq_true, beq_iff_eq, not_and]
      intro hn hd
      exact absurd ⟨hn, hd⟩ this
    constructor
    · rw [visit]
      simp only [hdup, Bool.false_eq_true, if_false, hv]
      rfl
    · have hfilter :
          ({ stv with locals := stv.locals ++ [⟨name, stv.depth⟩] } : CompState).locals.filter
              (fun l => l.depth == stv.depth) =
            stv.locals.filter (fun l => l.depth == stv.depth) ++ [⟨name, stv.depth⟩] := by
        simp
      have hscan := @scanBack_concat name ⟨name, stv.depth⟩
        (stv.locals.filter (fun l => l.depth == stv.depth)) rfl
      simp only [visitIdent, hfilter]
      rw [hscan]

/-- C9 witness: with `x` already bound at the current depth 1, both
declaration forms fail with the duplicate-identifier error; with `x` bound
only at the outer depth 0, redeclaring `x` at depth 1 succeeds and a
subsequent lookup resolves to the new inner binding (slot 0 of the depth-1
view). -/
theorem C9_duplicate_and_shadowing_witness :
    (visit (.valDecl "x" (.intLit 7)) ⟨[], [⟨"x", 1⟩], [], 1, 0⟩ =
        .error (.duplicateIdentifier "x") ∧
     visit (.funcDecl "x" [] []) ⟨[], [⟨"x", 1⟩], [], 1, 0⟩ =
        .error (.duplicateIdentifier "x")) ∧
    (visit (.valDecl "x" (.intLit 7)) ⟨[], [⟨"x", 0⟩], [], 1, 0⟩ =
        .ok ⟨[⟨.number 7, 0⟩], [⟨"x", 0⟩, ⟨"x", 1⟩], [3, 0], 1, 1⟩ ∧
     visitIdent "x" ⟨[⟨.number 7, 0⟩], [⟨"x", 0⟩, ⟨"x", 1⟩], [3, 0], 1, 1⟩ =
        .ok (emit ⟨[⟨.number 7, 0⟩], [⟨"x", 0⟩, ⟨"x", 1⟩], [3, 0], 1, 1⟩ [7, 0])) := by
  constructor
  · exact (C9_duplicate_and_shadowing ⟨[], [⟨"x", 1⟩], [], 1, 0⟩ "x" (.intLit 7)
      [] []).1 ⟨⟨"x", 1⟩, by simp, rfl, rfl⟩
  · have h := (C9_duplicate_and_shadowing ⟨[], [⟨"x", 0⟩], [], 1, 0⟩ "x" (.intLit 7)
      [] []).2 (by decide) ⟨[⟨.number 7, 0⟩], [⟨"x", 0⟩], [3, 0], 1, 1⟩ (by rfl)
    constructor
    · simpa using h.1
    · simpa using h.2

theorem runConstant_halted {arg? : Option Nat} {s₂ s' : VMState}
    (h : runConstant arg? s₂ = .ok s') : s'.halted = s₂.halted := by
  unfold runConstant at h
  try dsimp only at h
  repeat' (split at h)
  all_goals cases h
  all_goals rfl

theorem runNeg_halted {s₁ s' : VMState} (h : runNeg s₁ = .ok s') :
    s'.halted = s₁.halted := by
  unfold runNeg at h
  try dsimp only at h
  repeat' (split at h)
  all_goals cases h
  all_goals rfl

theorem runAdd_halted {s₁ s' : VMState} (h : runAdd s₁ = .ok s') :
    s'.halted = s₁.halted := by
  unfold runAdd at h
  try dsimp only at h
  repeat' (split at h)
  all_goals cases h
  all_goals rfl

theorem runSub_halted {s₁ s' : VMState} (h : runSub s₁ = .ok s') :
    s'.halted = s₁.halted := by
  unfold runSub at h
  try dsimp only at h
  repeat' (split at h)
  all_goals cases h
  all_goals rfl

theorem runLoad_halted {arg? : Option Nat} {off : Int} {s₂ s' : VMState}
    (h : runLoad arg? off s₂ = .ok s') : s'.halted = s₂.halted := by
  unfold runLoad at h
  try dsimp only at h
  repeat' (split at h)
  all_goals cases h
  all_goals rfl

theorem runStore_halted {arg? : Option Nat} {off : Int} {s₂ s' : VMState}
    (h : runStore arg? off s₂ = .ok s') : s'.halted = s₂.halted := by
  unfold runStore at h
  try dsimp only at h
  repeat' (split at h)
  all_goals cases h
  all_goals rfl

theorem runPrint_halted {s₁ s' : VMState} (h : runPrint s₁ = .ok s') :
    s'.halted = s₁.halted := by
  unfold runPrint at h
  try dsimp only at h
  repeat' (split at h)
  all_goals cases h
  all_goals rfl

theorem runInvoke_halted {arg? : Option Nat} {s₂ s' : VMState}
    (h : runInvoke arg? s₂ = .ok s') : s'.halted = s₂.halted := by
  unfold runInvoke at h
  try dsimp only at h
  repeat' (split at h)
  all_goals cases h
  all_goals rfl

theorem runPop_halted {s₁ s' : VMState} (h : runPop s₁ = .ok s') :
    s'.halted = s₁.halted := by
  unfold runPop at h
  try dsimp only at h
  repeat' (split at h)
  all_goals cases h
  all_goals rfl

theorem runReturn_halted {C : List Value} {f : CallFrame} {fs : List CallFrame}
    {stk : List Value} {out : List String} {h : Bool} {s' : VMState}
    (hr : runReturn ⟨C, f :: fs, stk, out, h⟩ = .ok s') :
    s'.halted = (h || fs.isEmpty) := by
  cases fs with
  | nil =>
      unfold runReturn at hr
      cases hr
      simp
  | cons g rest =>
      unfold runReturn at hr
      cases hr
      simp

set_option maxHeartbeats 1000000 in
/-- C5 amended: whenever the VM halts, the value it returns is the one left
on top of the stack, or `Nil` when the stack is empty at halt; and one
execution step sets the halt flag exactly when the fetched opcode is
`return` (13) while the current frame is the only one on the call stack.
(A run may instead end in a thrown error, returning no value at all.) -/
theorem C5_halt_behaviour :
    (∀ s s', step s = .ok s' → s.halted = false →
       (s'.halted = true ↔ (currentInstr s = some 13 ∧ s.callStack.length = 1))) ∧
    (∀ n s, s.halted = true →
       runVM (n + 1) s = .ok (some (s.stack.getLast?.getD .nil))) := by
  constructor
  · intro s s' hstep hhalt
    obtain ⟨C, cs, stk, out, hflag⟩ := s
    simp only at hhalt
    subst hhalt
    cases cs with
    | nil => simp [step] at hstep
    | cons f fs =>
      rw [step] at hstep
      try dsimp only at hstep
      simp only [currentInstr]
      cases hfetch : f.code[f.ip]? with
      | none =>
          rw [hfetch] at hstep
          cases hstep
          simp [hfetch]
      | some op =>
          rw [hfetch] at hstep
          have hcases : op = 0 ∨ op = 1 ∨ op = 2 ∨ op = 3 ∨ op = 4 ∨ op = 5 ∨
              op = 6 ∨ op = 7 ∨ op = 8 ∨ op = 9 ∨ op = 10 ∨ op = 11 ∨ op = 12 ∨
              op = 13 ∨ 14 ≤ op := by omega
          rcases hcases with rfl | rfl | rfl | rfl | rfl | rfl | rfl | rfl |
            rfl | rfl | rfl | rfl | rfl | rfl | h14
          · norm_num at hstep
            cases hstep; simp [VMState.push, hfetch]
          · norm_num at hstep
            cases hstep; simp [VMState.push, hfetch]
          · norm_num at hstep
            cases hstep; simp [VMState.push, hfetch]
          · norm_num at hstep
            have hh := runConstant_halted hstep
            simp only at hh
            simp [hh, hfetch]
          · norm_num at hstep
            have hh := runNeg_halted hstep
            simp only at hh
            simp [hh, hfetch]
          · norm_num at hstep
            have hh := runAdd_halted hstep
            simp only at hh
            simp [hh, hfetch]
          · norm_num at hstep
            have hh := runSub_halted hstep
            simp only at hh
            simp [hh, hfetch]
          · norm_num at hstep
            have hh := runLoad_halted hstep
            simp only at hh
            simp [hh, hfetch]
          · norm_num at hstep
            have hh := runStore_halted hstep
            simp only at hh
            simp [hh, hfetch]
          · norm_num at hstep
            have hh := runPrint_halted hstep
            simp only at hh
            simp [hh, hfetch]
          · norm_num at hstep
            have hh := runInvoke_halted hstep
            simp only at hh
            simp [hh, hfetch]
          · norm_num at hstep
            have hh := runPop_halted hstep
            simp only at hh
            simp [hh, hfetch]
          · norm_num at hstep
            cases hstep; simp [VMState.push, hfetch]
          · norm_num at hstep
            have hh := runReturn_halted hstep
            simp only [Bool.false_or] at hh
            cases fs with
            | nil => simp_all [hfetch]
            | cons g rest => simp_all [hfetch]
          · dsimp only at hstep
            iterate 12 rw [if_neg (by omega)] at hstep
            cases hstep; simp [hfetch]
            omega
  · intro n s hh
    simp [runVM, hh]

/-- C5 witness: stepping a state about to execute `return` in its only frame
halts the machine; a halted run returns the value on top of the stack (7
here), and `Nil` when the stack is empty. -/
theorem C5_halt_behaviour_witness :
    (⟨[], [⟨1, [13], 0⟩], [.number 7], [], true⟩ : VMState).halted = true ∧
    runVM 1 ⟨[], [⟨1, [13], 0⟩], [.number 7], [], true⟩ = .ok (some (.number 7)) ∧
    runVM 1 ⟨[], [⟨1, [13], 0⟩], [], [], true⟩ = .ok (some .nil) := by
  refine ⟨?_, ?_, ?_⟩
  · exact (C5_halt_behaviour.1 ⟨[], [⟨0, [13], 0⟩], [.number 7], [], false⟩
      ⟨[], [⟨1, [13], 0⟩], [.number 7], [], true⟩ rfl rfl).mpr ⟨rfl, rfl⟩
  · have h := C5_halt_behaviour.2 0 ⟨[], [⟨1, [13], 0⟩], [.number 7], [], true⟩ rfl
    simpa using h
  · have h := C5_halt_behaviour.2 0 ⟨[], [⟨1, [13], 0⟩], [], [], true⟩ rfl
    simpa using h

/-! ## Stack-effect characterization of the straight-line opcode arms -/

theorem runConstant_ok {arg? : Option Nat} {sIn sOut : VMState}
    (h : runConstant arg? sIn = .ok sOut) :
    sOut.callStack = sIn.callStack ∧ sOut.constants = sIn.constants ∧
    sOut.halted = sIn.halted ∧ sOut.output = sIn.output ∧
    (sOut.stack.length : Int) = sIn.stack.length + 1 := by
  unfold runConstant at h
  repeat' (split at h)
  all_goals cases h
  all_goals exact ⟨rfl, rfl, rfl, rfl, by simp [VMState.push]⟩

theorem runNeg_ok {sIn sOut : VMState} (h : runNeg sIn = .ok sOut) :
    sOut.callStack = sIn.callStack ∧ sOut.constants = sIn.constants ∧
    sOut.halted = sIn.halted ∧ sOut.output = sIn.output ∧
    (sOut.stack.length : Int) = sIn.stack.length := by
  rcases List.eq_nil_or_concat sIn.stack with hnil | ⟨u, r, hu⟩
  · simp [runNeg, VMState.top?, hnil] at h
  · unfold runNeg at h
    rw [show sIn.top? = some r from by simp [VMState.top?, hu]] at h
    dsimp only at h
    split at h
    · cases h
      refine ⟨rfl, rfl, rfl, rfl, ?_⟩
      simp [VMState.push, VMState.popped, hu]
    · cases h

theorem runAdd_ok {sIn sOut : VMState} (h : runAdd sIn = .ok sOut) :
    sOut.callStack = sIn.callStack ∧ sOut.constants = sIn.constants ∧
    sOut.halted = sIn.halted ∧ sOut.output = sIn.output ∧
    (sOut.stack.length : Int) = sIn.stack.length - 1 := by
  rcases List.eq_nil_or_concat sIn.stack with hnil | ⟨u, r, hu⟩
  · simp [runAdd, VMState.top?, hnil] at h
  · rcases List.eq_nil_or_concat u with rfl | ⟨w, l, rfl⟩
    · simp [runAdd, VMState.top?, VMState.popped, hu] at h
    · unfold runAdd at h
      rw [show sIn.top? = some r from by simp [VMState.top?, hu]] at h
      dsimp only at h
      rw [show sIn.popped.top? = some l from by
        simp [VMState.top?, VMState.popped, hu]] at h
      dsimp only at h
      repeat' (split at h)
      all_goals cases h
      all_goals refine ⟨rfl, rfl, rfl, rfl, ?_⟩
      all_goals simp [VMState.push, VMState.popped, hu]
      all_goals omega

theorem runSub_ok {sIn sOut : VMState} (h : runSub sIn = .ok sOut) :
    sOut.callStack = sIn.callStack ∧ sOut.constants = sIn.constants ∧
    sOut.halted = sIn.halted ∧ sOut.output = sIn.output ∧
    (sOut.stack.length : Int) = sIn.stack.length - 1 := by
  rcases List.eq_nil_or_concat sIn.stack with hnil | ⟨u, r, hu⟩
  · simp [runSub, VMState.top?, hnil] at h
  · rcases List.eq_nil_or_concat u with rfl | ⟨w, l, rfl⟩
    · simp [runSub, VMState.top?, VMState.popped, hu] at h
    · unfold runSub at h
      rw [show sIn.top? = some r from by simp [VMState.top?, hu]] at h
      dsimp only at h
      rw [show sIn.popped.top? = some l from by
        simp [VMState.top?, VMState.popped, hu]] at h
      dsimp only at h
      repeat' (split at h)
      all_goals cases h
      all_goals refine ⟨rfl, rfl, rfl, rfl, ?_⟩
      all_goals simp [VMState.push, VMState.popped, hu]
      all_goals omega

theorem runLoad_ok {arg? : Option Nat} {off : Int} {sIn sOut : VMState}
    (h : runLoad arg? off sIn = .ok sOut) :
    sOut.callStack = sIn.callStack ∧ sOut.constants = sIn.constants ∧
    sOut.halted = sIn.halted ∧ sOut.output = sIn.output ∧
    (sOut.stack.length : Int) = sIn.stack.length + 1 := by
  unfold runLoad at h
  try dsimp only at h
  repeat' (split at h)
  all_goals cases h
  all_goals exact ⟨rfl, rfl, rfl, rfl, by simp [VMState.push]⟩

theorem runPrint_ok {sIn sOut : VMState} (h : runPrint sIn = .ok sOut) :
    sOut.callStack = sIn.callStack ∧ sOut.constants = sIn.constants ∧
    sOut.halted = sIn.halted ∧ (∃ w, sOut.output = sIn.output ++ [w]) ∧
    (sOut.stack.length : Int) = sIn.stack.length - 1 := by
  rcases List.eq_nil_or_concat sIn.stack with hnil | ⟨u, r, hu⟩
  · simp [runPrint, VMState.top?, hnil] at h
  · unfold runPrint at h
    rw [show sIn.top? = some r from by simp [VMState.top?, hu]] at h
    dsimp only at h
    cases h
    refine ⟨rfl, rfl, rfl, ⟨valueToString r, rfl⟩, ?_⟩
    simp [VMState.popped, hu]

theorem runPop_ok {sIn sOut : VMState} (h : runPop sIn = .ok sOut) :
    sOut.callStack = sIn.callStack ∧ sOut.constants = sIn.constants ∧
    sOut.halted = sIn.halted ∧ sOut.output = sIn.output ∧
    (sOut.stack.length : Int) = sIn.stack.length - 1 := by
  rcases List.eq_nil_or_concat sIn.stack with hnil | ⟨u, r, hu⟩
  · simp [runPop, VMState.top?, hnil] at h
  · unfold runPop at h
    rw [show sIn.top? = some r from by simp [VMState.top?, hu]] at h
    dsimp only at h
    cases h
    refine ⟨rfl, rfl, rfl, rfl, ?_⟩
    simp [VMState.popped, hu]

theorem straight_append {a : List Nat} {j : Int} {m : Nat}
    (ha : StraightCode a j m) {b : List Nat} {k : Int} {n : Nat}
    (hb : StraightCode b k n) : StraightCode (a ++ b) (j + k) (m + n) := by
  induction ha with
  | nil => simpa using hb
  | push0 _ ih => convert StraightCode.push0 ih using 1 <;> omega
  | push1 _ ih => convert StraightCode.push1 ih using 1 <;> omega
  | push2 _ ih => convert StraightCode.push2 ih using 1 <;> omega
  | const i _ ih => convert StraightCode.const i ih using 1 <;> omega
  | neg _ ih => convert StraightCode.neg ih using 1 <;> omega
  | add _ ih => convert StraightCode.add ih using 1 <;> omega
  | sub _ ih => convert StraightCode.sub ih using 1 <;> omega
  | load i _ ih => convert StraightCode.load i ih using 1 <;> omega
  | print _ ih => convert StraightCode.print ih using 1 <;> omega
  | pop _ ih => convert StraightCode.pop ih using 1 <;> omega
  | nilv _ ih => convert StraightCode.nilv ih using 1 <;> omega

/-- Executing a straight-line code fragment embedded between a prefix `p`
and a suffix `q` of the current frame's code: when the run of its
instruction count's worth of steps succeeds, the machine has advanced the
instruction pointer across the fragment, stayed in the same frame with the
same pool, and changed the stack depth by exactly the fragment's net
effect. -/
theorem straight_run {δ : List Nat} {k : Int} {n : Nat} (h : StraightCode δ k n) :
    ∀ (C : List Value) (p q : List Nat) (off : Int) (fs : List CallFrame)
      (s : List Value) (out : List String) (s' : VMState),
      runSteps n ⟨C, ⟨p.length, p ++ δ ++ q, off⟩ :: fs, s, out, false⟩ = .ok s' →
      ∃ (t : List Value) (out' : List String),
        s' = ⟨C, ⟨p.length + δ.length, p ++ δ ++ q, off⟩ :: fs, t, out', false⟩ ∧
        (t.length : Int) = s.length + k := by
  induction h with
  | nil =>
      intro C p q off fs s out s' hrun
      simp only [runSteps] at hrun
      cases hrun
      exact ⟨s, out, by simp, by simp⟩
  | @push0 r k' n' hr ih =>
      intro C p q off fs s out s' hrun
      simp only [runSteps] at hrun
      have hfetch : (p ++ 0 :: (r ++ q))[p.length]? = some 0 :=
        get_at_len p (r ++ q) 0
      have hstep : step ⟨C, ⟨p.length, p ++ (0 :: r) ++ q, off⟩ :: fs, s, out, false⟩ =
          .ok ⟨C, ⟨p.length + 1, p ++ (0 :: r) ++ q, off⟩ :: fs,
               s ++ [.number 0], out, false⟩ := by
        simp [step, hfetch, VMState.push]
      rw [hstep] at hrun
      have hrun' : runSteps n' ⟨C, ⟨(p ++ [0]).length, (p ++ [0]) ++ r ++ q, off⟩ :: fs,
          s ++ [.number 0], out, false⟩ = .ok s' := by
        simpa using hrun
      obtain ⟨t, out', rfl, hlen⟩ := ih C (p ++ [0]) q off fs (s ++ [.number 0]) out s' hrun'
      refine ⟨t, out', ?_, ?_⟩
      · have e1 : (p ++ [0]).length + r.length = p.length + (0 :: r).length := by
          simp; omega
        have e2 : (p ++ [0]) ++ r ++ q = p ++ (0 :: r) ++ q := by simp
        rw [e1, e2]
      · simp only [List.length_append, List.length_cons, List.length_nil] at hlen
        push_cast at hlen ⊢
        omega
  | @push1 r k' n' hr ih =>
      intro C p q off fs s out s' hrun
      simp only [runSteps] at hrun
      have hfetch : (p ++ 1 :: (r ++ q))[p.length]? = some 1 :=
        get_at_len p (r ++ q) 1
      have hstep : step ⟨C, ⟨p.length, p ++ (1 :: r) ++ q, off⟩ :: fs, s, out, false⟩ =
          .ok ⟨C, ⟨p.length + 1, p ++ (1 :: r) ++ q, off⟩ :: fs,
               s ++ [.number 1], out, false⟩ := by
        simp [step, hfetch, VMState.push]
      rw [hstep] at hrun
      have hrun' : runSteps n' ⟨C, ⟨(p ++ [1]).length, (p ++ [1]) ++ r ++ q, off⟩ :: fs,
          s ++ [.number 1], out, false⟩ = .ok s' := by
        simpa using hrun
      obtain ⟨t, out', rfl, hlen⟩ := ih C (p ++ [1]) q off fs (s ++ [.number 1]) out s' hrun'
      refine ⟨t, out', ?_, ?_⟩
      · have e1 : (p ++ [1]).length + r.length = p.length + (1 :: r).length := by
          simp; omega
        have e2 : (p ++ [1]) ++ r ++ q = p ++ (1 :: r) ++ q := by simp
        rw [e1, e2]
      · simp only [List.length_append, List.length_cons, List.length_nil] at hlen
        push_cast at hlen ⊢
        omega
  | @push2 r k' n' hr ih =>
      intro C p q off fs s out s' hrun
      simp only [runSteps] at hrun
      have hfetch : (p ++ 2 :: (r ++ q))[p.length]? = some 2 :=
        get_at_len p (r ++ q) 2
      have hstep : step ⟨C, ⟨p.length, p ++ (2 :: r) ++ q, off⟩ :: fs, s, out, false⟩ =
          .ok ⟨C, ⟨p.length + 1, p ++ (2 :: r) ++ q, off⟩ :: fs,
               s ++ [.number 2], out, false⟩ := by
        simp [step, hfetch, VMState.push]
      rw [hstep] at hrun
      have hrun' : runSteps n' ⟨C, ⟨(p ++ [2]).length, (p ++ [2]) ++ r ++ q, off⟩ :: fs,
          s ++ [.number 2], out, false⟩ = .ok s' := by
        simpa using hrun
      obtain ⟨t, out', rfl, hlen⟩ := ih C (p ++ [2]) q off fs (s ++ [.number 2]) out s' hrun'
      refine ⟨t, out', ?_, ?_⟩
      · have e1 : (p ++ [2]).length + r.length = p.length + (2 :: r).length := by
          simp; omega
        have e2 : (p ++ [2]) ++ r ++ q = p ++ (2 :: r) ++ q := by simp
        rw [e1, e2]
      · simp only [List.length_append, List.length_cons, List.length_nil] at hlen
        push_cast at hlen ⊢
        omega
  | @const r k' n' i hr ih =>
      intro C p q off fs s out s' hrun
      simp only [runSteps] at hrun
      have hfetch : (p ++ 3 :: i :: (r ++ q))[p.length]? = some 3 :=
        get_at_len p (i :: (r ++ q)) 3
      have hfetch2 : (p ++ 3 :: i :: (r ++ q))[p.length + 1]? = some i :=
        get_at_len_succ p (r ++ q) 3 i
      have hstep : step ⟨C, ⟨p.length, p ++ (3 :: i :: r) ++ q, off⟩ :: fs, s, out, false⟩ =
          runConstant (some i)
            ⟨C, ⟨p.length + 2, p ++ (3 :: i :: r) ++ q, off⟩ :: fs, s, out, false⟩ := by
        simp [step, hfetch, hfetch2]
      rw [hstep] at hrun
      cases hdisp : runConstant (some i)
          ⟨C, ⟨p.length + 2, p ++ (3 :: i :: r) ++ q, off⟩ :: fs, s, out, false⟩ with
      | err e sE => rw [hdisp] at hrun; cases hrun
      | ok s₁ =>
          rw [hdisp] at hrun
          obtain ⟨C₁, cs₁, stk₁, out₁, h₁⟩ := s₁
          obtain ⟨hcs, hC, hh, hout, hlen1⟩ := runConstant_ok hdisp
          simp only at hcs hC hh hout hlen1
          have hrun' : runSteps n' ⟨C, ⟨(p ++ [3, i]).length, (p ++ [3, i]) ++ r ++ q, off⟩ :: fs,
              stk₁, out, false⟩ = .ok s' := by
            simpa [hcs, hC, hh, hout] using hrun
          obtain ⟨t, out', rfl, hlen⟩ := ih C (p ++ [3, i]) q off fs stk₁ out s' hrun'
          refine ⟨t, out', ?_, ?_⟩
          · have e1 : (p ++ [3, i]).length + r.length = p.length + (3 :: i :: r).length := by
              simp; omega
            have e2 : (p ++ [3, i]) ++ r ++ q = p ++ (3 :: i :: r) ++ q := by simp
            rw [e1, e2]
          · push_cast at hlen hlen1 ⊢
            omega
  | @neg r k' n' hr ih =>
      intro C p q off fs s out s' hrun
      simp only [runSteps] at hrun
      have hfetch : (p ++ 4 :: (r ++ q))[p.length]? = some 4 :=
        get_at_len p (r ++ q) 4
      have hstep : step ⟨C, ⟨p.length, p ++ (4 :: r) ++ q, off⟩ :: fs, s, out, false⟩ =
          runNeg ⟨C, ⟨p.length + 1, p ++ (4 :: r) ++ q, off⟩ :: fs, s, out, false⟩ := by
        simp [step, hfetch]
      rw [hstep] at hrun
      cases hdisp : runNeg ⟨C, ⟨p.length + 1, p ++ (4 :: r) ++ q, off⟩ :: fs, s, out, false⟩ with
      | err e sE => rw [hdisp] at hrun; cases hrun
      | ok s₁ =>
          rw [hdisp] at hrun
          obtain ⟨C₁, cs₁, stk₁, out₁, h₁⟩ := s₁
          obtain ⟨hcs, hC, hh, hout, hlen1⟩ := runNeg_ok hdisp
          simp only at hcs hC hh hout hlen1
          have hrun' : runSteps n' ⟨C, ⟨(p ++ [4]).length, (p ++ [4]) ++ r ++ q, off⟩ :: fs,
              stk₁, out, false⟩ = .ok s' := by
            simpa [hcs, hC, hh, hout] using hrun
          obtain ⟨t, out', rfl, hlen⟩ := ih C (p ++ [4]) q off fs stk₁ out s' hrun'
          refine ⟨t, out', ?_, ?_⟩
          · have e1 : (p ++ [4]).length + r.length = p.length + (4 :: r).length := by
              simp; omega
            have e2 : (p ++ [4]) ++ r ++ q = p ++ (4 :: r) ++ q := by simp
            rw [e1, e2]
          · push_cast at hlen hlen1 ⊢
            omega
  | @add r k' n' hr ih =>
      intro C p q off fs s out s' hrun
      simp only [runSteps] at hrun
      have hfetch : (p ++ 5 :: (r ++ q))[p.length]? = some 5 :=
        get_at_len p (r ++ q) 5
      have hstep : step ⟨C, ⟨p.length, p ++ (5 :: r) ++ q, off⟩ :: fs, s, out, false⟩ =
          runAdd ⟨C, ⟨p.length + 1, p ++ (5 :: r) ++ q, off⟩ :: fs, s, out, false⟩ := by
        simp [step, hfetch]
      rw [hstep] at hrun
      cases hdisp : runAdd ⟨C, ⟨p.length + 1, p ++ (5 :: r) ++ q, off⟩ :: fs, s, out, false⟩ with
      | err e sE => rw [hdisp] at hrun; cases hrun
      | ok s₁ =>
          rw [hdisp] at hrun
          obtain ⟨C₁, cs₁, stk₁, out₁, h₁⟩ := s₁
          obtain ⟨hcs, hC, hh, hout, hlen1⟩ := runAdd_ok hdisp
          simp only at hcs hC hh hout hlen1
          have hrun' : runSteps n' ⟨C, ⟨(p ++ [5]).length, (p ++ [5]) ++ r ++ q, off⟩ :: fs,
              stk₁, out, false⟩ = .ok s' := by
            simpa [hcs, hC, hh, hout] using hrun
          obtain ⟨t, out', rfl, hlen⟩ := ih C (p ++ [5]) q off fs stk₁ out s' hrun'
          refine ⟨t, out', ?_, ?_⟩
          · have e1 : (p ++ [5]).length + r.length = p.length + (5 :: r).length := by
              simp; omega
            have e2 : (p ++ [5]) ++ r ++ q = p ++ (5 :: r) ++ q := by simp
            rw [e1, e2]
          · push_cast at hlen hlen1 ⊢
            omega
  | @sub r k' n' hr ih =>
      intro C p q off fs s out s' hrun
      simp only [runSteps] at hrun
      have hfetch : (p ++ 6 :: (r ++ q))[p.length]? = some 6 :=
        get_at_len p (r ++ q) 6
      have hstep : step ⟨C, ⟨p.length, p ++ (6 :: r) ++ q, off⟩ :: fs, s, out, false⟩ =
          runSub ⟨C, ⟨p.length + 1, p ++ (6 :: r) ++ q, off⟩ :: fs, s, out, false⟩ := by
        simp [step, hfetch]
      rw [hstep] at hrun
      cases hdisp : runSub ⟨C, ⟨p.length + 1, p ++ (6 :: r) ++ q, off⟩ :: fs, s, out, false⟩ with
      | err e sE => rw [hdisp] at hrun; cases hrun
      | ok s₁ =>
          rw [hdisp] at hrun
          obtain ⟨C₁, cs₁, stk₁, out₁, h₁⟩ := s₁
          obtain ⟨hcs, hC, hh, hout, hlen1⟩ := runSub_ok hdisp
          simp only at hcs hC hh hout hlen1
          have hrun' : runSteps n' ⟨C, ⟨(p ++ [6]).length, (p ++ [6]) ++ r ++ q, off⟩ :: fs,
              stk₁, out, false⟩ = .ok s' := by
            simpa [hcs, hC, hh, hout] using hrun
          obtain ⟨t, out', rfl, hlen⟩ := ih C (p ++ [6]) q off fs stk₁ out s' hrun'
          refine ⟨t, out', ?_, ?_⟩
          · have e1 : (p ++ [6]).length + r.length = p.length + (6 :: r).length := by
              simp; omega
            have e2 : (p ++ [6]) ++ r ++ q = p ++ (6 :: r) ++ q := by simp
            rw [e1, e2]
          · push_cast at hlen hlen1 ⊢
            omega
  | @load r k' n' i hr ih =>
      intro C p q off fs s out s' hrun
      simp only [runSteps] at hrun
      have hfetch : (p ++ 7 :: i :: (r ++ q))[p.length]? = some 7 :=
        get_at_len p (i :: (r ++ q)) 7
      have hfetch2 : (p ++ 7 :: i :: (r ++ q))[p.length + 1]? = some i :=
        get_at_len_succ p (r ++ q) 7 i
      have hstep : step ⟨C, ⟨p.length, p ++ (7 :: i :: r) ++ q, off⟩ :: fs, s, out, false⟩ =
          runLoad (some i) off
            ⟨C, ⟨p.length + 2, p ++ (7 :: i :: r) ++ q, off⟩ :: fs, s, out, false⟩ := by
        simp [step, hfetch, hfetch2]
      rw [hstep] at hrun
      cases hdisp : runLoad (some i) off
          ⟨C, ⟨p.length + 2, p ++ (7 :: i :: r) ++ q, off⟩ :: fs, s, out, false⟩ with
      | err e sE => rw [hdisp] at hrun; cases hrun
      | ok s₁ =>
          rw [hdisp] at hrun
          obtain ⟨C₁, cs₁, stk₁, out₁, h₁⟩ := s₁
          obtain ⟨hcs, hC, hh, hout, hlen1⟩ := runLoad_ok hdisp
          simp only at hcs hC hh hout hlen1
          have hrun' : runSteps n' ⟨C, ⟨(p ++ [7, i]).length, (p ++ [7, i]) ++ r ++ q, off⟩ :: fs,
              stk₁, out, false⟩ = .ok s' := by
            simpa [hcs, hC, hh, hout] using hrun
          obtain ⟨t, out', rfl, hlen⟩ := ih C (p ++ [7, i]) q off fs stk₁ out s' hrun'
          refine ⟨t, out', ?_, ?_⟩
          · have e1 : (p ++ [7, i]).length + r.length = p.length + (7 :: i :: r).length := by
              simp; omega
            have e2 : (p ++ [7, i]) ++ r ++ q = p ++ (7 :: i :: r) ++ q := by simp
            rw [e1, e2]
          · push_cast at hlen hlen1 ⊢
            omega
  | @print r k' n' hr ih =>
      intro C p q off fs s out s' hrun
      simp only [runSteps] at hrun
      have hfetch : (p ++ 9 :: (r ++ q))[p.length]? = some 9 :=
        get_at_len p (r ++ q) 9
      have hstep : step ⟨C, ⟨p.length, p ++ (9 :: r) ++ q, off⟩ :: fs, s, out, false⟩ =
          runPrint ⟨C, ⟨p.length + 1, p ++ (9 :: r) ++ q, off⟩ :: fs, s, out, false⟩ := by
        simp [step, hfetch]
      rw [hstep] at hrun
      cases hdisp : runPrint ⟨C, ⟨p.length + 1, p ++ (9 :: r) ++ q, off⟩ :: fs, s, out, false⟩ with
      | err e sE => rw [hdisp] at hrun; cases hrun
      | ok s₁ =>
          rw [hdisp] at hrun
          obtain ⟨C₁, cs₁, stk₁, out₁, h₁⟩ := s₁
          obtain ⟨hcs, hC, hh, hout, hlen1⟩ := runPrint_ok hdisp
          obtain ⟨w, hout⟩ := hout
          simp only at hcs hC hh hout hlen1
          have hrun' : runSteps n' ⟨C, ⟨(p ++ [9]).length, (p ++ [9]) ++ r ++ q, off⟩ :: fs,
              stk₁, out ++ [w], false⟩ = .ok s' := by
            simpa [hcs, hC, hh, hout] using hrun
          obtain ⟨t, out', rfl, hlen⟩ := ih C (p ++ [9]) q off fs stk₁ (out ++ [w]) s' hrun'
          refine ⟨t, out', ?_, ?_⟩
          · have e1 : (p ++ [9]).length + r.length = p.length + (9 :: r).length := by
              simp; omega
            have e2 : (p ++ [9]) ++ r ++ q = p ++ (9 :: r) ++ q := by simp
            rw [e1, e2]
          · push_cast at hlen hlen1 ⊢
            omega
  | @pop r k' n' hr ih =>
      intro C p q off fs s out s' hrun
      simp only [runSteps] at hrun
      have hfetch : (p ++ 11 :: (r ++ q))[p.length]? = some 11 :=
        get_at_len p (r ++ q) 11
      have hstep : step ⟨C, ⟨p.length, p ++ (11 :: r) ++ q, off⟩ :: fs, s, out, false⟩ =
          runPop ⟨C, ⟨p.length + 1, p ++ (11 :: r) ++ q, off⟩ :: fs, s, out, false⟩ := by
        simp [step, hfetch]
      rw [hstep] at hrun
      cases hdisp : runPop ⟨C, ⟨p.length + 1, p ++ (11 :: r) ++ q, off⟩ :: fs, s, out, false⟩ with
      | err e sE => rw [hdisp] at hrun; cases hrun
      | ok s₁ =>
          rw [hdisp] at hrun
          obtain ⟨C₁, cs₁, stk₁, out₁, h₁⟩ := s₁
          obtain ⟨hcs, hC, hh, hout, hlen1⟩ := runPop_ok hdisp
          simp only at hcs hC hh hout hlen1
          have hrun' : runSteps n' ⟨C, ⟨(p ++ [11]).length, (p ++ [11]) ++ r ++ q, off⟩ :: fs,
              stk₁, out, false⟩ = .ok s' := by
            simpa [hcs, hC, hh, hout] using hrun
          obtain ⟨t, out', rfl, hlen⟩ := ih C (p ++ [11]) q off fs stk₁ out s' hrun'
          refine ⟨t, out', ?_, ?_⟩
          · have e1 : (p ++ [11]).length + r.length = p.length + (11 :: r).length := by
              simp; omega
            have e2 : (p ++ [11]) ++ r ++ q = p ++ (11 :: r) ++ q := by simp
            rw [e1, e2]
          · push_cast at hlen hlen1 ⊢
            omega
  | @nilv r k' n' hr ih =>
      intro C p q off fs s out s' hrun
      simp only [runSteps] at hrun
      have hfetch : (p ++ 12 :: (r ++ q))[p.length]? = some 12 :=
        get_at_len p (r ++ q) 12
      have hstep : step ⟨C, ⟨p.length, p ++ (12 :: r) ++ q, off⟩ :: fs, s, out, false⟩ =
          .ok ⟨C, ⟨p.length + 1, p ++ (12 :: r) ++ q, off⟩ :: fs,
               s ++ [.nil], out, false⟩ := by
        simp [step, hfetch, VMState.push]
      rw [hstep] at hrun
      have hrun' : runSteps n' ⟨C, ⟨(p ++ [12]).length, (p ++ [12]) ++ r ++ q, off⟩ :: fs,
          s ++ [.nil], out, false⟩ = .ok s' := by
        simpa using hrun
      obtain ⟨t, out', rfl, hlen⟩ := ih C (p ++ [12]) q off fs (s ++ [.nil]) out s' hrun'
      refine ⟨t, out', ?_, ?_⟩
      · have e1 : (p ++ [12]).length + r.length = p.length + (12 :: r).length := by
          simp; omega
        have e2 : (p ++ [12]) ++ r ++ q = p ++ (12 :: r) ++ q := by simp
        rw [e1, e2]
      · simp only [List.length_append, List.length_cons, List.length_nil] at hlen
        push_cast at hlen ⊢
        omega

/-! ## The code emitted for a straight statement block -/

theorem stmt_shape (n : AstNode) :
    (isExpr n = true ∧ isPrintStmt n = false ∧ isDeclNode n = false) ∨
    (isPrintStmt n = true ∧ isExpr n = false ∧ isDeclNode n = false) ∨
    (isDeclNode n = true ∧ isExpr n = false ∧ isPrintStmt n = false) := by
  cases n <;> simp [isExpr, isPrintStmt, isDeclNode]

theorem numDecls_cons (n : AstNode) (rest : List AstNode) :
    numDecls (n :: rest) = (if isDeclNode n then 1 else 0) + numDecls rest := by
  simp only [numDecls, List.filter_cons]
  split <;> simp [Nat.add_comm]

theorem visit_straight : ∀ (node : AstNode), straightStmt node = true →
    ∀ (st st' : CompState), visit node st = .ok st' →
    ∃ (δ : List Nat) (m : Nat), st'.code = st.code ++ δ ∧
      StraightCode δ (if isPrintStmt node then 0 else 1) m
  | .intLit v => by
      intro _ st st' hv
      rw [visit, visitIntLit] at hv
      by_cases h0 : (v == 0) = true
      · rw [if_pos h0] at hv
        cases hv
        exact ⟨[0], 1, by simp [emit], StraightCode.push0 StraightCode.nil⟩
      · rw [if_neg h0] at hv
        dsimp only [alloc] at hv
        cases hscan : addConstant ⟨.number v, st.nextRef⟩
            { st with nextRef := st.nextRef + 1 } with
        | mk idx st₂ =>
            rw [hscan] at hv
            cases hv
            have hcode : st₂.code = st.code := by
              unfold addConstant at hscan
              split at hscan <;> cases hscan <;> rfl
            exact ⟨[3, idx], 1, by simp [emit, hcode],
              StraightCode.const idx StraightCode.nil⟩
  | .stringLit v => by
      intro _ st st' hv
      rw [visit, visitStringLit] at hv
      dsimp only [alloc] at hv
      cases hscan : addConstant ⟨.string v, st.nextRef⟩
          { st with nextRef := st.nextRef + 1 } with
      | mk idx st₂ =>
          rw [hscan] at hv
          cases hv
          have hcode : st₂.code = st.code := by
            unfold addConstant at hscan
            split at hscan <;> cases hscan <;> rfl
          exact ⟨[3, idx], 1, by simp [emit, hcode],
            StraightCode.const idx StraightCode.nil⟩
  | .ident name => by
      intro _ st st' hv
      rw [visit, visitIdent] at hv
      cases hscan : scanBack name (st.locals.filter (fun l => l.depth == st.depth)) with
      | none => rw [hscan] at hv; cases hv
      | some i =>
          rw [hscan] at hv
          cases hv
          exact ⟨[7, i], 1, by simp [emit], StraightCode.load i StraightCode.nil⟩
  | .unary op e => by
      intro hs st st' hv
      have ihe := visit_straight e
      simp only [straightStmt, Bool.and_eq_true] at hs
      rw [visit] at hv
      cases hvis : visit e st with
      | error err => rw [hvis] at hv; cases hv
      | ok st₁ =>
          rw [hvis] at hv
          simp only [exc_bind_ok] at hv
          obtain ⟨δ₁, m₁, hcode₁, hsc₁⟩ := ihe hs.2 st st₁ hvis
          cases op <;> (try cases hv)
          · have hnp : isPrintStmt e = false := by
              cases e <;> simp_all [isExpr, isPrintStmt]
            rw [hnp] at hsc₁
            refine ⟨δ₁ ++ [4], m₁ + 1, by simp [emit, hcode₁], ?_⟩
            have h2 := straight_append hsc₁ (StraightCode.neg StraightCode.nil)
            simpa using h2
  | .binary op l r => by
      intro hs st st' hv
      have ihl := visit_straight l
      have ihr := visit_straight r
      simp only [straightStmt, Bool.and_eq_true] at hs
      obtain ⟨⟨⟨hel, hsl⟩, her⟩, hsr⟩ := hs
      rw [visit] at hv
      cases hvisl : visit l st with
      | error err => rw [hvisl] at hv; cases hv
      | ok st₁ =>
          rw [hvisl] at hv
          simp only [exc_bind_ok] at hv
          cases hvisr : visit r st₁ with
          | error err => rw [hvisr] at hv; cases hv
          | ok st₂ =>
              rw [hvisr] at hv
              simp only [exc_bind_ok] at hv
              obtain ⟨δ₁, m₁, hcode₁, hsc₁⟩ := ihl hsl st st₁ hvisl
              obtain ⟨δ₂, m₂, hcode₂, hsc₂⟩ := ihr hsr st₁ st₂ hvisr
              have hnpl : isPrintStmt l = false := by
                cases l <;> simp_all [isExpr, isPrintStmt]
              have hnpr : isPrintStmt r = false := by
                cases r <;> simp_all [isExpr, isPrintStmt]
              rw [hnpl] at hsc₁
              rw [hnpr] at hsc₂
              cases op <;> (try cases hv)
              · refine ⟨δ₁ ++ δ₂ ++ [5], m₁ + m₂ + 1,
                  by simp [emit, hcode₁, hcode₂], ?_⟩
                have h2 := straight_append (straight_append hsc₁ hsc₂)
                  (StraightCode.add StraightCode.nil)
                simpa using h2
              · refine ⟨δ₁ ++ δ₂ ++ [6], m₁ + m₂ + 1,
                  by simp [emit, hcode₁, hcode₂], ?_⟩
                have h2 := straight_append (straight_append hsc₁ hsc₂)
                  (StraightCode.sub StraightCode.nil)
                simpa using h2
  | .invoke target args => by
      intro hs
      simp [straightStmt] at hs
  | .valDecl name v => by
      intro hs st st' hv
      have ihv := visit_straight v
      simp only [straightStmt, Bool.and_eq_true] at hs
      rw [visit] at hv
      split at hv
      · cases hv
      · cases hvis : visit v st with
        | error err => rw [hvis] at hv; cases hv
        | ok st₁ =>
            rw [hvis] at hv
            simp only [exc_bind_ok] at hv
            cases hv
            obtain ⟨δ₁, m₁, hcode₁, hsc₁⟩ := ihv hs.2 st st₁ hvis
            have hnp : isPrintStmt v = false := by
              cases v <;> simp_all [isExpr, isPrintStmt]
            rw [hnp] at hsc₁
            exact ⟨δ₁, m₁, by simpa using hcode₁, hsc₁⟩
  | .funcDecl name params body => by
      intro _ st st' hv
      rw [visit] at hv
      split at hv
      · cases hv
      · cases hblock : compileBlock body
            { st with code := [], depth := st.depth + 1,
                      locals := st.locals ++ ⟨"#ret", st.depth + 1⟩ ::
                        params.map (⟨·, st.depth + 1⟩) } with
        | error err =>
            simp only [hblock, exc_bind_error] at hv
            cases hv
        | ok st₁ =>
            simp only [hblock, exc_bind_ok] at hv
            cases hv
            simp only [emit, addConstant_code]
            refine ⟨_, 1, rfl, ?_⟩
            exact StraightCode.const _ StraightCode.nil
  | .printStmt e => by
      intro hs st st' hv
      have ihe := visit_straight e
      simp only [straightStmt, Bool.and_eq_true] at hs
      rw [visit] at hv
      cases hvis : visit e st with
      | error err => rw [hvis] at hv; cases hv
      | ok st₁ =>
          rw [hvis] at hv
          simp only [exc_bind_ok] at hv
          cases hv
          obtain ⟨δ₁, m₁, hcode₁, hsc₁⟩ := ihe hs.2 st st₁ hvis
          have hnp : isPrintStmt e = false := by
            cases e <;> simp_all [isExpr, isPrintStmt]
          rw [hnp] at hsc₁
          refine ⟨δ₁ ++ [9], m₁ + 1, by simp [emit, hcode₁], ?_⟩
          have h2 := straight_append hsc₁ (StraightCode.print StraightCode.nil)
          simpa using h2

theorem straight_cast {δ : List Nat} {e f : Int} {m : Nat}
    (h : StraightCode δ e m) (hef : e = f) : StraightCode δ f m := hef ▸ h

/-- Compiling a block of straight statements appends a straight-line code
fragment whose net stack effect is the number of declarations plus one for
the block value (zero for the empty block). -/
theorem compileBlock_straight : ∀ (nodes : List AstNode),
    nodes.all straightStmt = true →
    ∀ (st st' : CompState), compileBlock nodes st = .ok st' →
    ∃ (δ : List Nat) (m : Nat), st'.code = st.code ++ δ ∧
      StraightCode δ ((numDecls nodes : Int) +
        if nodes.isEmpty then 0 else 1) m := by
  intro nodes
  induction nodes with
  | nil =>
      intro _ st st' h
      rw [compileBlock] at h
      cases h
      exact ⟨[], 0, by simp, by simpa [numDecls] using StraightCode.nil⟩
  | cons n rest ih =>
      intro hall st st' h
      rw [List.all_cons, Bool.and_eq_true] at hall
      obtain ⟨hn, hrest⟩ := hall
      cases rest with
      | nil =>
          rw [compileBlock] at h
          cases hv : visit n st with
          | error e => rw [hv, exc_bind_error] at h; cases h
          | ok st₁ =>
              rw [hv, exc_bind_ok] at h
              obtain ⟨δ, m, hcode, hsc⟩ := visit_straight n hn st st₁ hv
              by_cases he : isExpr n = true
              · rw [if_pos he] at h
                cases h
                have hnp : isPrintStmt n = false := by
                  rcases stmt_shape n with h1 | h1 | h1 <;> simp_all
                have hnd : isDeclNode n = false := by
                  rcases stmt_shape n with h1 | h1 | h1 <;> simp_all
                rw [hnp] at hsc
                refine ⟨δ, m, hcode, straight_cast hsc ?_⟩
                simp [numDecls, List.filter_cons, hnd]
              · rw [if_neg he] at h
                cases h
                refine ⟨δ ++ [12], m + 1, by simp [emit, hcode], ?_⟩
                have h2 := straight_append hsc
                  (StraightCode.nilv StraightCode.nil)
                refine straight_cast (by simpa using h2) ?_
                rcases stmt_shape n with h1 | h1 | h1
                · simp_all
                · simp [h1.1, numDecls, List.filter_cons, h1.2.2]
                · simp [h1.2.2, h1.1, numDecls, List.filter_cons]
      | cons r rs =>
          rw [compileBlock] at h
          case x => intro hx; cases hx
          cases hv : visit n st with
          | error e => rw [hv, exc_bind_error] at h; cases h
          | ok st₁ =>
              rw [hv, exc_bind_ok] at h
              obtain ⟨δ₁, m₁, hcode₁, hsc₁⟩ := visit_straight n hn st st₁ hv
              by_cases he : isExpr n = true
              · rw [if_pos he] at h
                obtain ⟨δ₂, m₂, hcode₂, hsc₂⟩ := ih hrest _ st' h
                have hnp : isPrintStmt n = false := by
                  rcases stmt_shape n with h1 | h1 | h1 <;> simp_all
                have hnd : isDeclNode n = false := by
                  rcases stmt_shape n with h1 | h1 | h1 <;> simp_all
                rw [hnp] at hsc₁
                refine ⟨δ₁ ++ ([11] ++ δ₂), m₁ + (1 + m₂),
                  by simp [emit, hcode₁] at hcode₂ ⊢; simp [hcode₂], ?_⟩
                have h2 := straight_append hsc₁
                  (straight_append (StraightCode.pop StraightCode.nil) hsc₂)
                refine straight_cast h2 ?_
                rw [numDecls_cons n (r :: rs), hnd]
                simp only [List.isEmpty_cons, Bool.false_eq_true, if_false]
                push_cast
                omega
              · rw [if_neg he] at h
                obtain ⟨δ₂, m₂, hcode₂, hsc₂⟩ := ih hrest _ st' h
                refine ⟨δ₁ ++ δ₂, m₁ + m₂,
                  by rw [hcode₂, hcode₁, List.append_assoc], ?_⟩
                have h2 := straight_append hsc₁ hsc₂
                refine straight_cast h2 ?_
                rw [numDecls_cons n (r :: rs)]
                rcases stmt_shape n with h1 | h1 | h1
                · simp_all
                · rw [h1.1, h1.2.2]
                  simp only [List.isEmpty_cons, Bool.false_eq_true, if_false,
                    if_true]
                  push_cast
                  omega
                · rw [h1.2.2, h1.1]
                  simp only [List.isEmpty_cons, Bool.false_eq_true, if_false,
                    if_true]
                  push_cast
                  omega

/-- C4 (amended): for a block of invocation-free, parser-shaped statements
(`straightStmt`) that compiles successfully, running the compiled module for
the fragment's instruction count leaves the machine in the same sole frame
with the instruction pointer just before the final return, and the stack
depth equals the number of declaration statements plus one for the block
value (zero for the empty block) — not always exactly one as the spec
claims. -/
theorem C4_block_stack_effect (nodes : List AstNode)
    (hstraight : nodes.all straightStmt = true)
    (M : Module) (hc : compile nodes = .ok M) :
    ∃ (δ : List Nat) (nsteps : Nat), M.code = δ ++ [13] ∧
      ∀ (s' : VMState), runSteps nsteps (initState M) = .ok s' →
        ∃ (t : List Value) (out : List String),
          s' = ⟨M.constants, [⟨δ.length, δ ++ [13], 0⟩], t, out, false⟩ ∧
          (t.length : Int) = (numDecls nodes : Int) +
            (if nodes.isEmpty then 0 else 1) := by
  unfold compile at hc
  cases hcb : compileBlock nodes initComp with
  | error e => rw [hcb] at hc; cases hc
  | ok stf =>
      rw [hcb] at hc
      cases hc
      obtain ⟨δ, cnt, hcode, hsc⟩ :=
        compileBlock_straight nodes hstraight initComp stf hcb
      have hcode' : stf.code = δ := by simpa [initComp] using hcode
      refine ⟨δ, cnt, by simp only [hcode'], ?_⟩
      intro s' hrun
      simp only [initState, hcode'] at hrun
      obtain ⟨t, out', hs', hlen⟩ :=
        straight_run hsc (stf.constants.map (·.val)) [] [13] 0 [] [] [] s' hrun
      refine ⟨t, out', by simpa using hs', by simpa using hlen⟩

/-- Witness for `C4_block_stack_effect`: the one-statement block
`print(0)` compiles to `const0; print; nil; return` and the theorem applies
to it. -/
theorem C4_block_stack_effect_witness :
    ([AstNode.printStmt (.intLit 0)]).all straightStmt = true ∧
    compile [AstNode.printStmt (.intLit 0)] = .ok ⟨[], [0, 9, 12, 13]⟩ ∧
    (∃ (δ : List Nat) (nsteps : Nat),
      (Module.mk [] [0, 9, 12, 13]).code = δ ++ [13] ∧
      ∀ (s' : VMState),
        runSteps nsteps (initState ⟨[], [0, 9, 12, 13]⟩) = .ok s' →
        ∃ (t : List Value) (out : List String),
          s' = ⟨(Module.mk [] [0, 9, 12, 13]).constants,
                [⟨δ.length, δ ++ [13], 0⟩], t, out, false⟩ ∧
          (t.length : Int) =
            (numDecls [AstNode.printStmt (.intLit 0)] : Int) +
            (if ([AstNode.printStmt (.intLit 0)]).isEmpty then 0 else 1)) :=
  ⟨by decide, by rfl,
    C4_block_stack_effect [.printStmt (.intLit 0)] (by decide)
      ⟨[], [0, 9, 12, 13]⟩ (by rfl)⟩

end TTalk
